import Mathlib

/-!
Verification development for the question-answering backend: a shallow
embedding of the heuristic query translator, result renderers, response
classifier, table/chart extractors and the request handler's error
dispatch, together with theorems settling the frozen specification claims.

Conventions of the embedding:
* Python strings are Lean `String`s (ASCII-faithful: `lower`, `title`,
  whitespace and the regex character classes are modelled over ASCII).
* Python dicts that the code builds by insertion are association lists
  that preserve first-insertion order, with last-write-wins updates.
* Python numbers are `Int` and `Rat`; decimal renderings are exact
  decimal renderings of the rational value.
* Fallible code (f-string formatting that can raise on a wrongly typed
  field) returns `Except String`.
-/

deriving instance DecidableEq for Except

namespace QA

/-- Whitespace characters recognised by Python's `str.strip` and the
regex class matched by a backslash-s, restricted to ASCII. -/
def isPyWs (c : Char) : Bool :=
  c = ' ' || c = '\t' || c = '\n' || c = '\r' || c = '\x0b' || c = '\x0c'

/-- Boolean prefix test on character lists. -/
def listPref : List Char → List Char → Bool
  | [], _ => true
  | _ :: _, [] => false
  | a :: as, b :: bs => a = b && listPref as bs

/-- Boolean substring test on character lists: Python's `p in s`. -/
def listSub (p : List Char) : List Char → Bool
  | [] => listPref p []
  | c :: t => listPref p (c :: t) || listSub p t

/-- Python's `needle in hay` on strings. -/
def hasSub (hay needle : String) : Bool := listSub needle.data hay.data

/-- Python's `str.lower`, ASCII model. -/
def pyLower (s : String) : String := ⟨s.data.map Char.toLower⟩

/-- Drop leading Python whitespace. -/
def dropLeadWs (l : List Char) : List Char := l.dropWhile isPyWs

/-- Drop trailing Python whitespace. -/
def dropTrailWs (l : List Char) : List Char := (l.reverse.dropWhile isPyWs).reverse

/-- Python's `str.strip()` on a character list. -/
def pyStripL (l : List Char) : List Char := dropTrailWs (dropLeadWs l)

/-- Python's `str.strip()`. -/
def pyStrip (s : String) : String := ⟨pyStripL s.data⟩

/-- Association-list insertion with Python-dict semantics: an existing
key keeps its position and gets the new value, a new key is appended. -/
def upsert {α : Type} (m : List (String × α)) (k : String) (v : α) : List (String × α) :=
  match m with
  | [] => [(k, v)]
  | (k', v') :: t => if k' = k then (k, v) :: t else (k', v') :: upsert t k v

/-- First-match association-list lookup. -/
def lookupA {α : Type} (m : List (String × α)) (k : String) : Option α :=
  match m with
  | [] => none
  | (k', v) :: t => if k' = k then some v else lookupA t k

/-- Concatenation of a list of character lists. -/
def concatL (ls : List (List Char)) : List Char := ls.foldr (· ++ ·) []

/-- Join lines, appending a newline after each line. -/
def joinNl (ls : List (List Char)) : List Char := concatL (ls.map (· ++ ['\n']))

/-- Split a character list on newline characters, keeping empty pieces. -/
def splitNl : List Char → List (List Char)
  | [] => [[]]
  | c :: t =>
    if c = '\n' then [] :: splitNl t
    else match splitNl t with
      | [] => [[c]]
      | l :: ls => (c :: l) :: ls

/-- Characters before the first occurrence of `sep`. -/
def takeUntil (sep : Char) : List Char → List Char
  | [] => []
  | c :: t => if c = sep then [] else c :: takeUntil sep t

/-- Characters after the first occurrence of `sep` (everything, if absent). -/
def dropPast (sep : Char) : List Char → List Char
  | [] => []
  | c :: t => if c = sep then t else dropPast sep t

/-- The decimal digit character for a value below ten. -/
def digitChar (n : Nat) : Char := Char.ofNat (48 + n)

/-- Decimal digit characters of a natural number, fuel-bounded (the
number itself always exceeds its digit count). -/
def natDigitsGo : Nat → Nat → List Char
  | 0, _ => []
  | fuel + 1, n =>
    if n < 10 then [digitChar n]
    else natDigitsGo fuel (n / 10) ++ [digitChar (n % 10)]

/-- Decimal digit characters of a natural number (model of Python `str(n)`). -/
def natDigits (n : Nat) : List Char := natDigitsGo (n + 1) n

/-- Model of Python `str` on a natural number. -/
def natStr (n : Nat) : String := ⟨natDigits n⟩

/-- Model of Python `str` on an integer. -/
def intStr (n : Int) : String :=
  if n < 0 then "-" ++ natStr n.natAbs else natStr n.natAbs

/-- Left-pad a natural's digits with zeros to two places. -/
def pad2 (n : Nat) : String := if n < 10 then "0" ++ natStr n else natStr n

/-- Left-pad a natural's digits with zeros to four places. -/
def pad4 (n : Nat) : String :=
  if n < 10 then "000" ++ natStr n
  else if n < 100 then "00" ++ natStr n
  else if n < 1000 then "0" ++ natStr n
  else natStr n

/-- Insert thousands separators into a digit list (grouping by three from
the right), the model of the comma flag in Python format specs. -/
def commaGroupRev : List Char → Nat → List Char
  | [], _ => []
  | c :: t, k =>
    if k = 3 then c :: ',' :: commaGroupRev t 1
    else c :: commaGroupRev t (k + 1)

/-- Digits of `n` with thousands separators. -/
def commaNat (n : Nat) : String := ⟨(commaGroupRev (natDigits n).reverse 1).reverse⟩

/-- Round a nonnegative rational to the nearest integer, ties to even
(the rounding used by Python's fixed-point float formatting). -/
def roundHalfEven (a : Rat) : Nat :=
  let f : Int := ⌊a⌋
  let r : Rat := a - (f : Rat)
  if r > 1/2 then (f + 1).toNat
  else if r < 1/2 then f.toNat
  else if f % 2 = 0 then f.toNat else (f + 1).toNat

/-- Model of Python's format spec comma-point-two-f on a rational. -/
def formatComma2 (x : Rat) : String :=
  let sign := if x < 0 then "-" else ""
  let cents := roundHalfEven (|x| * 100)
  sign ++ commaNat (cents / 100) ++ "." ++ pad2 (cents % 100)

/-- Model of Python's thousands-separated integer format spec. -/
def commaInt (n : Int) : String :=
  (if n < 0 then "-" else "") ++ commaNat n.natAbs

/-- Fractional digits of a rational in `[0,1)`, six places, trailing
zeros trimmed but at least one digit kept. -/
def fracDigits6 (fr : Rat) : List Char :=
  let scaled := roundHalfEven (fr * 1000000)
  let padded := (natDigits scaled).reverse ++ List.replicate 6 '0'
  let six := (padded.take 6).dropWhile (fun c => c = '0')
  if six = [] then ['0'] else six.reverse

/-- Model of Python `str` on a float value carried as a rational: an
exact decimal rendering with up to six fractional digits.  Claims only
rely on the character classes this can produce (digits, minus, dot). -/
def pyFloatStr (x : Rat) : String :=
  let sign := if x < 0 then "-" else ""
  let a := |x|
  let ip : Nat := (⌊a⌋).toNat
  sign ++ natStr ip ++ "." ++ ⟨fracDigits6 (a - (ip : Rat))⟩

/-! ## Query translator (`mongo_tool.py`, `_parse_query_to_mongo`) -/

/-- Values a translated filter can associate to a dotted field path. -/
inductive MongoVal where
  /-- A case-insensitive regex contains-match. -/
  | regexI (pat : String)
  /-- Equality with a number. -/
  | eqNat (n : Nat)
  /-- A between-filter: at least `lo` and at most `hi`. -/
  | rangeN (lo hi : Nat)
  /-- A lower bound. -/
  | gteN (n : Nat)
  /-- An upper bound. -/
  | lteN (n : Nat)
  /-- Equality with a string. -/
  | eqStr (s : String)
  /-- Membership of one required element. -/
  | inOne (s : String)
deriving DecidableEq, Repr

/-- A structured filter: dotted field paths mapped to filter values. -/
abbrev MongoFilter := List (String × MongoVal)

/-- The four cities appearing in the guard condition of the
location-based rule. -/
def cityGuard : List String := ["new york", "california", "texas", "florida"]

/-- The seven cities scanned by the location-based rule's loop. -/
def cityList : List String :=
  ["new york", "california", "texas", "florida", "chicago", "boston", "seattle"]

/-- City rule of `_parse_query_to_mongo`: fires only when the query
contains "from" and one of the four guard cities; then the first of the
seven listed cities found in the query becomes a case-insensitive
contains-match on `address.city`. -/
def applyCity (q : String) (m : MongoFilter) : MongoFilter :=
  if hasSub q "from" && cityGuard.any (fun c => hasSub q c) then
    match cityList.find? (fun c => hasSub q c) with
    | some city => upsert m "address.city" (.regexI city)
    | none => m
  else m

/-- Match result of the age regex: branch one captures groups one and
two, branch two captures group three. -/
inductive AgeM where
  /-- First alternative `aged? between? N(-M)?`: group one and optional group two. -/
  | b1 (n : Nat) (m : Option Nat)
  /-- Second alternative `age N`: group three. -/
  | b2 (n : Nat)
deriving DecidableEq, Repr

/-- Strip a literal pattern from the front of a character list. -/
def stripLit : List Char → List Char → Option (List Char)
  | [], s => some s
  | _ :: _, [] => none
  | p :: ps, c :: cs => if p = c then stripLit ps cs else none

/-- Maximal run of decimal digits at the front. -/
def takeDigits (l : List Char) : List Char × List Char :=
  match l with
  | [] => ([], [])
  | c :: t =>
    if c.isDigit then
      let (d, r) := takeDigits t
      (c :: d, r)
    else ([], l)

/-- Numeric value of a digit run (model of Python `int`). -/
def natOfDigits (ds : List Char) : Nat :=
  ds.foldl (fun acc c => acc * 10 + (c.toNat - 48)) 0

/-- Consume at least one whitespace character, then the maximal run. -/
def wsPlus (l : List Char) : Option (List Char) :=
  match l with
  | [] => none
  | c :: t => if isPyWs c then some (t.dropWhile isPyWs) else none

/-- Maximal run of whitespace, possibly empty. -/
def wsStar (l : List Char) : List Char := l.dropWhile isPyWs

/-- First alternative of the age regex attempted at the current
position: `aged?` then whitespace, an optional `between` plus
whitespace, a digit run, and an optional dash-separated second run. -/
def ageB1At (cs : List Char) : Option AgeM := do
  let r1 ← stripLit "age".data cs
  let r2 := match r1 with
    | 'd' :: t => t
    | _ => r1
  let r3 ← wsPlus r2
  let r4 := match stripLit "between".data r3 with
    | some rb =>
      match wsPlus rb with
      | some rb2 => rb2
      | none => r3
    | none => r3
  let (ds, r5) := takeDigits r4
  if ds = [] then none
  else
    let n := natOfDigits ds
    let r6 := wsStar r5
    match r6 with
    | '-' :: r7 =>
      let (ds2, _) := takeDigits (wsStar r7)
      if ds2 = [] then some (.b1 n none) else some (.b1 n (some (natOfDigits ds2)))
    | _ => some (.b1 n none)

/-- Second alternative of the age regex at the current position:
`age`, whitespace, digits. -/
def ageB2At (cs : List Char) : Option AgeM := do
  let r1 ← stripLit "age".data cs
  let r2 ← wsPlus r1
  let (ds, _) := takeDigits r2
  if ds = [] then none else some (.b2 (natOfDigits ds))

/-- Attempt both alternatives at the current position, first one first. -/
def ageMatchAt (cs : List Char) : Option AgeM :=
  match ageB1At cs with
  | some m => some m
  | none => ageB2At cs

/-- Leftmost match of the age regex (model of `re.search`). -/
def ageSearch : List Char → Option AgeM
  | [] => none
  | c :: t =>
    match ageMatchAt (c :: t) with
    | some m => some m
    | none => ageSearch t

/-- Age rule of `_parse_query_to_mongo`: a captured range becomes a
between-filter, a single captured number an equality filter. -/
def applyAge (q : String) (m : MongoFilter) : MongoFilter :=
  match ageSearch q.data with
  | some (.b1 n (some mx)) => upsert m "age" (.rangeN n mx)
  | some (.b1 n none) => upsert m "age" (.eqNat n)
  | some (.b2 n) => upsert m "age" (.eqNat n)
  | none => m

/-- Risk-tolerance rule of `_parse_query_to_mongo`. -/
def applyRisk (q : String) (m : MongoFilter) : MongoFilter :=
  if hasSub q "high risk" || hasSub q "aggressive" then
    upsert m "risk_profile.tolerance" (.eqStr "high")
  else if hasSub q "low risk" || hasSub q "conservative" then
    upsert m "risk_profile.tolerance" (.eqStr "low")
  else if hasSub q "medium risk" || hasSub q "moderate" then
    upsert m "risk_profile.tolerance" (.eqStr "medium")
  else m

/-- The fixed sector vocabulary. -/
def sectorList : List String :=
  ["technology", "healthcare", "finance", "energy", "real estate", "consumer goods"]

/-- Sector rule of `_parse_query_to_mongo`: first listed sector found. -/
def applySector (q : String) (m : MongoFilter) : MongoFilter :=
  match sectorList.find? (fun s => hasSub q s) with
  | some s => upsert m "investment_preferences.preferred_sectors" (.inOne s)
  | none => m

/-- Account-value rule of `_parse_query_to_mongo`. -/
def applyValue (q : String) (m : MongoFilter) : MongoFilter :=
  if hasSub q "high value" || hasSub q "wealthy" then
    upsert m "account_value" (.gteN 1000000)
  else if hasSub q "low value" then
    upsert m "account_value" (.lteN 100000)
  else m

/-- The query translator `_parse_query_to_mongo`: lower-case the query,
then apply the five keyword rules in program order. -/
def parseQueryToMongo (naturalQuery : String) : MongoFilter :=
  applyValue (pyLower naturalQuery)
    (applySector (pyLower naturalQuery)
      (applyRisk (pyLower naturalQuery)
        (applyAge (pyLower naturalQuery)
          (applyCity (pyLower naturalQuery) []))))

/-! ## Result renderer (`mongo_tool.py`, `_format_results` and
`_format_aggregation_results`) -/

/-- A scalar document value, carried together with enough typing to
model Python's `str()` and format specs on it. -/
inductive BVal where
  /-- A string value. -/
  | s (v : String)
  /-- An integer value. -/
  | i (n : Int)
  /-- A float value, carried as a rational. -/
  | f (q : Rat)
deriving DecidableEq, Repr

/-- A document field value: scalar, or a one-level nested document. -/
inductive FVal where
  /-- A scalar field. -/
  | base (b : BVal)
  /-- A nested document of scalar fields. -/
  | nested (l : List (String × BVal))
deriving DecidableEq, Repr

/-- A document: ordered fields, unique keys as produced by a dict. -/
abbrev Record := List (String × FVal)

/-- Python `str()` of a scalar value. -/
def renderB : BVal → String
  | .s v => v
  | .i n => intStr n
  | .f q => pyFloatStr q

/-- Python `repr()` of a scalar value, as used inside a dict rendering. -/
def reprB : BVal → String
  | .s v => "'" ++ v ++ "'"
  | .i n => intStr n
  | .f q => pyFloatStr q

/-- Join strings with a separator. -/
def joinSep (sep : String) : List String → String
  | [] => ""
  | [x] => x
  | x :: xs => x ++ sep ++ joinSep sep xs

/-- Python `str()` of a one-level dict of scalars. -/
def pyDictRepr (l : List (String × BVal)) : String :=
  "\x7b" ++ joinSep ", " (l.map (fun p => "'" ++ p.1 ++ "': " ++ reprB p.2)) ++ "\x7d"

/-- Python `str()` of a field value. -/
def renderF : FVal → String
  | .base b => renderB b
  | .nested l => pyDictRepr l

/-- Python `str.title()` over a character list: a letter is uppercased
after a non-letter and lowercased after a letter (ASCII model). -/
def titleCharsGo : List Char → Bool → List Char
  | [], _ => []
  | c :: t, prevAlpha =>
    (if c.isAlpha then (if prevAlpha then c.toLower else c.toUpper) else c) ::
      titleCharsGo t c.isAlpha

/-- Python `str.title()`. -/
def titleStr (s : String) : String := ⟨titleCharsGo s.data false⟩

/-- The lines the detailed renderer emits for one document field:
nothing for the internal identifier, one `Key: value` line for a scalar,
a `Key:` line followed by indented subfield lines for a nested value. -/
def fieldLinesOf (p : String × FVal) : List (List Char) :=
  if p.1 = "_id" then []
  else
    match p.2 with
    | .base b => [(titleStr p.1).data ++ (": " ++ renderB b).data]
    | .nested l =>
      ((titleStr p.1).data ++ [':']) ::
        l.map (fun q => "  ".data ++ (titleStr q.1).data ++ (": " ++ renderB q.2).data)

/-- All lines of one document's detailed block, in field order. -/
def emittedLines (r : Record) : List (List Char) :=
  (r.map fieldLinesOf).foldr (· ++ ·) []

/-- Body of one document's detailed block. -/
def bodyChars (r : Record) : List Char := joinNl (emittedLines r)

/-- The delimiter line put in front of the block of document `i`. -/
def delimChars (i : Nat) : List Char :=
  "--- Record ".data ++ (natStr i).data ++ " ---".data ++ ['\n']

/-- One document's contribution to the detailed view: delimiter, field
lines, and a trailing blank line. -/
def recordBlockChars (i : Nat) (r : Record) : List Char :=
  delimChars i ++ bodyChars r ++ ['\n']

/-- Blocks of all documents, numbering from `i`. -/
def blocksChars : Nat → List Record → List Char
  | _, [] => []
  | i, r :: rs => recordBlockChars i r ++ blocksChars (i + 1) rs

/-- The detailed view of `_format_results` (at most ten documents). -/
def detailedView (rs : List Record) : String :=
  ⟨("Found " ++ natStr rs.length ++ " matching records:\n\n").data ++ blocksChars 1 rs⟩

/-- One line of the summary view of `_format_results`.  Formatting can
raise when a field has an unexpected type: reading a subfield of a
string address, or money-formatting a string account value. -/
def summaryLine (i : Nat) (doc : Record) : Except String String := do
  let namePart := match lookupA doc "name" with
    | some v => "Name: " ++ renderF v ++ ", "
    | none => ""
  let agePart := match lookupA doc "age" with
    | some v => "Age: " ++ renderF v ++ ", "
    | none => ""
  let cityPart ← match lookupA doc "address" with
    | some (.nested l) =>
      match lookupA l "city" with
      | some v => pure ("City: " ++ renderB v ++ ", ")
      | none => pure ""
    | some (.base b) =>
      if hasSub (renderB b) "city" then
        throw "TypeError: string indices must be integers"
      else pure ""
    | none => pure ""
  let accPart ← match lookupA doc "account_value" with
    | some (.base (.i n)) => pure ("Account Value: $" ++ formatComma2 (n : Rat))
    | some (.base (.f q)) => pure ("Account Value: $" ++ formatComma2 q)
    | some (.base (.s _)) => throw "ValueError: unknown format code for str"
    | some (.nested _) => throw "TypeError: unsupported format spec for dict"
    | none => pure ""
  pure (natStr (i + 1) ++ ". " ++ namePart ++ agePart ++ cityPart ++ accPart ++ "\n")

/-- Summary lines for the first documents, enumerating from `i`. -/
def summaryLines : Nat → List Record → Except String String
  | _, [] => pure ""
  | i, d :: ds => do
    let l ← summaryLine i d
    let rest ← summaryLines (i + 1) ds
    pure (l ++ rest)

/-- The summary view of `_format_results` (more than ten documents). -/
def summaryView (rs : List Record) : Except String String := do
  let ls ← summaryLines 0 (rs.take 5)
  pure ("Found " ++ natStr rs.length ++ " matching clients.\n\nSample results:\n" ++ ls ++
    (if rs.length > 5 then "... and " ++ natStr (rs.length - 5) ++ " more results.\n" else ""))

/-- The record renderer `_format_results`: the fixed sentence on empty
input, the summary view above ten documents, the detailed view below. -/
def formatResults (results : List Record) (query : String) : Except String String :=
  if results.isEmpty then pure "No matching records found in MongoDB."
  else if results.length > 10 then summaryView results
  else pure (detailedView results)

/-- One row of an aggregation result, with the optionality of `dict.get`. -/
structure AggRow where
  /-- Manager name projected from the group key. -/
  relationship_manager : Option String
  /-- Sampled employee identifier. -/
  manager_employee_id : Option String
  /-- Sampled specialty. -/
  manager_specialty : Option String
  /-- Number of clients in the group. -/
  client_count : Option Int
  /-- Sum of account values. -/
  total_portfolio_value : Option Rat
  /-- Average of account values. -/
  avg_portfolio_value : Option Rat
deriving DecidableEq, Repr

/-- One ranked block of the top-managers aggregation rendering. -/
def rankBlock (i : Nat) (r : AggRow) : String :=
  "--- Rank " ++ natStr i ++ " ---\n" ++
  "Name: " ++ r.relationship_manager.getD "N/A" ++ "\n" ++
  "Employee ID: " ++ r.manager_employee_id.getD "N/A" ++ "\n" ++
  "Specialty: " ++ r.manager_specialty.getD "N/A" ++ "\n" ++
  "Client Count: " ++ intStr (r.client_count.getD 0) ++ "\n" ++
  "Total Portfolio Value: $" ++ formatComma2 (r.total_portfolio_value.getD 0) ++ "\n" ++
  "Average Portfolio Value: $" ++ formatComma2 (r.avg_portfolio_value.getD 0) ++ "\n\n"

/-- One block of the breakdown aggregation rendering. -/
def managerBlock (i : Nat) (r : AggRow) : String :=
  "--- Manager " ++ natStr i ++ " ---\n" ++
  "Name: " ++ r.relationship_manager.getD "N/A" ++ "\n" ++
  "Specialty: " ++ r.manager_specialty.getD "N/A" ++ "\n" ++
  "Client Count: " ++ intStr (r.client_count.getD 0) ++ "\n" ++
  "Total Portfolio Value: $" ++ formatComma2 (r.total_portfolio_value.getD 0) ++ "\n" ++
  "Average Portfolio Value: $" ++ formatComma2 (r.avg_portfolio_value.getD 0) ++ "\n\n"

/-- Blocks of all aggregation rows, numbering from `i`. -/
def aggBlocks (f : Nat → AggRow → String) : Nat → List AggRow → String
  | _, [] => ""
  | i, r :: rs => f i r ++ aggBlocks f (i + 1) rs

/-- The aggregation renderer `_format_aggregation_results`. -/
def formatAggregationResults (results : List AggRow) (query : String) : String :=
  if results.isEmpty then "No matching records found in MongoDB."
  else
    let ql := pyLower query
    if hasSub ql "top" && hasSub ql "relationship manager" then
      "Top Relationship Managers by Portfolio Value:\n\n" ++ aggBlocks rankBlock 1 results
    else
      "Portfolio Value Breakdown by Relationship Manager:\n\n" ++ aggBlocks managerBlock 1 results

/-! ## Table extraction (`response_formatter.py`, `_extract_table_data`) -/

/-- A recovered table row: ordered column-to-value mapping. -/
abbrev Row := List (String × String)

/-- The literal head of the record-delimiter pattern. -/
def recMark : List Char := "--- Record ".data

/-- Full delimiter match at the current position: the record marker, a
digit run, the closing dashes and a newline; returns the remainder. -/
def delimAt (cs : List Char) : Option (List Char) :=
  match stripLit recMark cs with
  | none => none
  | some r1 =>
    let p := takeDigits r1
    if p.1 = [] then none
    else
      match stripLit " ---\n".data p.2 with
      | some r4 => some r4
      | none => none

/-- Lookahead delimiter match (no newline required), as used to end the
lazy block capture. -/
def delimStartB (cs : List Char) : Bool :=
  match stripLit recMark cs with
  | none => false
  | some r1 =>
    let (ds, r2) := takeDigits r1
    if ds = [] then false
    else (stripLit " ---".data r2).isSome

/-- Scan to the first full delimiter; return the text after it. -/
def scanToDelim : List Char → Option (List Char)
  | [] => none
  | c :: t =>
    match delimAt (c :: t) with
    | some r => some r
    | none => scanToDelim t

/-- Capture the lazy block: everything before the next delimiter
lookahead (or the whole remainder). -/
def takeBlock : List Char → List Char × List Char
  | [] => ([], [])
  | c :: t =>
    if delimStartB (c :: t) then ([], c :: t)
    else
      let (b, r) := takeBlock t
      (c :: b, r)

/-- Fuel-bounded block scan; each round consumes at least the delimiter,
so the text length plus one is always enough fuel. -/
def splitBlocksGo : Nat → List Char → List (List Char)
  | 0, _ => []
  | fuel + 1, cs =>
    match scanToDelim cs with
    | none => []
    | some rest =>
      let p := takeBlock rest
      p.1 :: splitBlocksGo fuel p.2

/-- Non-overlapping record blocks, the model of the block findall. -/
def splitBlocks (cs : List Char) : List (List Char) := splitBlocksGo (cs.length + 1) cs

/-- Key-value pair recovered from one block line, when the line has a
colon and its stripped form does not begin with a blank. -/
def lineKV (line : List Char) : Option (String × String) :=
  if line.contains ':' && !(listPref [' '] (pyStripL line)) then
    some (⟨pyStripL (takeUntil ':' line)⟩, ⟨pyStripL (dropPast ':' line)⟩)
  else none

/-- Fold the colon lines of a block into a row. -/
def rowOfLines (lines : List (List Char)) : Row :=
  lines.foldl (fun acc line =>
    match lineKV line with
    | some (k, v) => upsert acc k v
    | none => acc) []

/-- Row recovered from one record block. -/
def rowOfBlock (b : List Char) : Row := rowOfLines (splitNl (pyStripL b))

/-- Strategy (b): rows of all nonempty record blocks. -/
def pattern1RowsOf (blocks : List (List Char)) : List Row :=
  blocks.filterMap (fun b =>
    let r := rowOfBlock b
    if r.isEmpty then none else some r)

/-- Is there a colon before the next newline? -/
def hasColonBeforeNl : List Char → Bool
  | [] => false
  | c :: t => if c = ':' then true else if c = '\n' then false else hasColonBeforeNl t

/-- Numbered-list recognition attempted at one position: digits, a dot,
whitespace, then a colon on the same logical stretch. -/
def pat2At (cs : List Char) : Bool :=
  let (ds, r1) := takeDigits cs
  if ds = [] then false
  else
    match r1 with
    | '.' :: r2 =>
      match wsPlus r2 with
      | some r3 => hasColonBeforeNl r3
      | none => false
    | _ => false

/-- Recognition test of strategy (c), the search for the numbered-list
pattern. -/
def pat2Found : List Char → Bool
  | [] => false
  | c :: t => pat2At (c :: t) || pat2Found t

/-- Split at the first newline: the line rest and the remainder. -/
def restOfLine : List Char → List Char × List Char
  | [] => ([], [])
  | c :: t =>
    if c = '\n' then ([], c :: t)
    else
      let (a, r) := restOfLine t
      (c :: a, r)

/-- One numbered-list item match: digits, dot, whitespace, then the rest
of the line as the captured item. -/
def pat2MatchAt (cs : List Char) : Option (List Char × List Char) :=
  let (ds, r1) := takeDigits cs
  if ds = [] then none
  else
    match r1 with
    | '.' :: r2 =>
      match wsPlus r2 with
      | some r3 => some (restOfLine r3)
      | none => none
    | _ => none

/-- All numbered-list items (fuel-bounded scan; the fuel is the text
length plus one, enough for the left-to-right non-overlapping scan). -/
def pat2ItemsGo : Nat → List Char → List (List Char)
  | 0, _ => []
  | _ + 1, [] => []
  | fuel + 1, c :: t =>
    match pat2MatchAt (c :: t) with
    | some (item, rest) => item :: pat2ItemsGo fuel rest
    | none => pat2ItemsGo fuel t

/-- All numbered-list items of the text. -/
def pat2Items (cs : List Char) : List (List Char) := pat2ItemsGo (cs.length + 1) cs

/-- Split a character list on commas, keeping empty pieces. -/
def splitComma : List Char → List (List Char)
  | [] => [[]]
  | c :: t =>
    if c = ',' then [] :: splitComma t
    else
      match splitComma t with
      | [] => [[c]]
      | l :: ls => (c :: l) :: ls

/-- Row built from one numbered-list item: comma parts become key-value
pairs on their first colon, or a description entry. -/
def rowOfItem (item : List Char) : Row :=
  (splitComma item).foldl (fun acc part =>
    if part.contains ':' then
      upsert acc ⟨pyStripL (takeUntil ':' part)⟩ ⟨pyStripL (dropPast ':' part)⟩
    else upsert acc "Description" ⟨pyStripL part⟩) []

/-- Strategy (c): rows of all numbered-list items. -/
def pattern2Rows (cs : List Char) : List Row :=
  (pat2Items cs).filterMap (fun item =>
    let r := rowOfItem item
    if r.isEmpty then none else some r)

/-- Recognition test of strategy (d). -/
def pat3Cond (cs : List Char) : Bool :=
  listSub "Found".data cs && (cs.contains '$' || cs.contains '%' || listSub "Value".data cs)

/-- Marker test of strategy (d): the line mentions a name, client or
portfolio label. -/
def lineHasMarker (line : List Char) : Bool :=
  listSub "Name:".data line || listSub "Client:".data line || listSub "Portfolio:".data line

/-- Word characters of the regex word class (ASCII model). -/
def isWordChar (c : Char) : Bool := c.isAlphanum || c = '_'

/-- One key-value match of the marker-line token regex: a word run, a
colon, optional whitespace, then a nonempty run without commas. -/
def pat3PairAt (cs : List Char) : Option ((List Char × List Char) × List Char) :=
  let (w, r1) := cs.span isWordChar
  if w = [] then none
  else
    match r1 with
    | ':' :: r2 =>
      let r3 := wsStar r2
      let (v, r4) := r3.span (fun c => !(c = ',' || c = '\n'))
      if v = [] then none else some ((w, v), r4)
    | _ => none

/-- All key-value matches on a line (fuel-bounded scan). -/
def pat3PairsGo : Nat → List Char → List (List Char × List Char)
  | 0, _ => []
  | _ + 1, [] => []
  | fuel + 1, c :: t =>
    match pat3PairAt (c :: t) with
    | some (kv, rest) => kv :: pat3PairsGo fuel rest
    | none => pat3PairsGo fuel t

/-- Row built from one marker line. -/
def rowOfMarkerLine (line : List Char) : Row :=
  (pat3PairsGo (line.length + 1) line).foldl (fun acc kv =>
    upsert acc ⟨pyStripL kv.1⟩ ⟨pyStripL kv.2⟩) []

/-- Strategy (d): rows of all marker lines. -/
def pattern3Rows (cs : List Char) : List Row :=
  (splitNl cs).filterMap (fun line =>
    if lineHasMarker line then
      let r := rowOfMarkerLine line
      if r.isEmpty then none else some r
    else none)

/-! ## Strategy (a): raw tuple dumps (`_parse_sql_tuples`).  The
code evaluates the bracketed slice as a literal after token rewrites;
the model parses the literal grammar those rewrites anticipate (lists of
flat tuples of ints, floats, strings, `None`, date, datetime and
float-call values) and fails to the empty result otherwise, as the
code's exception handlers do. -/

/-- A parsed tuple element. -/
inductive PVal where
  /-- The `None` literal. -/
  | none
  /-- An integer literal. -/
  | i (n : Int)
  /-- A float literal or float call. -/
  | f (q : Rat)
  /-- A string literal. -/
  | s (v : String)
  /-- A `date(y, m, d)` call. -/
  | date (y m d : Nat)
  /-- A `datetime(y, m, d, ...)` call. -/
  | datetime (y m d : Nat)
deriving DecidableEq, Repr

/-- Replace all non-overlapping occurrences of `pat` (nonempty) by
`rep`, scanning left to right: Python's `str.replace`. -/
def replaceAllGo (pat rep : List Char) : Nat → List Char → List Char
  | 0, l => l
  | _ + 1, [] => []
  | fuel + 1, c :: t =>
    match stripLit pat (c :: t) with
    | some rest => rep ++ replaceAllGo pat rep fuel rest
    | none => c :: replaceAllGo pat rep fuel t

/-- Python's `str.replace` over character lists. -/
def replaceAll (pat rep l : List Char) : List Char := replaceAllGo pat rep (l.length + 1) l

/-- Gregorian leap years. -/
def isLeap (y : Nat) : Bool := (y % 4 = 0 && y % 100 ≠ 0) || y % 400 = 0

/-- Days in a month. -/
def daysInMonth (y m : Nat) : Nat :=
  if m = 2 then (if isLeap y then 29 else 28)
  else if m = 4 || m = 6 || m = 9 || m = 11 then 30
  else 31

/-- Validity check performed by the date constructor. -/
def validDate (y m d : Nat) : Bool :=
  1 ≤ y && y ≤ 9999 && 1 ≤ m && m ≤ 12 && 1 ≤ d && d ≤ daysInMonth y m

/-- Characters until the closing quote, and the remainder after it. -/
def takeToQuote (q : Char) : List Char → Option (List Char × List Char)
  | [] => Option.none
  | c :: t =>
    if c = q then some ([], t)
    else
      match takeToQuote q t with
      | some (a, r) => some (c :: a, r)
      | Option.none => Option.none

/-- Parse an integer or float numeric literal. -/
def parseNumTok (cs : List Char) : Option (PVal × List Char) :=
  let (neg, r0) := match cs with
    | '-' :: t => (true, t)
    | _ => (false, cs)
  let (ds, r1) := takeDigits r0
  if ds = [] then Option.none
  else
    match r1 with
    | '.' :: r2 =>
      let (fs, r3) := takeDigits r2
      let q : Rat := (natOfDigits ds : Rat) + (natOfDigits fs : Rat) / ((10 : Rat) ^ fs.length)
      some (.f (if neg then -q else q), r3)
    | _ => some (.i (if neg then -(natOfDigits ds : Int) else (natOfDigits ds : Int)), r1)

/-- Parse a comma-separated run of integer literals up to a closing
parenthesis (the argument list of a date or datetime constructor). -/
def parseIntArgs : Nat → List Char → Option (List Int × List Char)
  | 0, _ => Option.none
  | fuel + 1, cs =>
    let cs := wsStar cs
    let (neg, r0) := match cs with
      | '-' :: t => (true, t)
      | _ => (false, cs)
    let (ds, r1) := takeDigits r0
    if ds = [] then Option.none
    else
      let n : Int := if neg then -(natOfDigits ds : Int) else (natOfDigits ds : Int)
      match wsStar r1 with
      | ')' :: r2 => some ([n], r2)
      | ',' :: r2 =>
        match parseIntArgs fuel r2 with
        | some (ns, r3) => some (n :: ns, r3)
        | Option.none => Option.none
      | _ => Option.none

/-- Build a date-like value from constructor arguments, with the
constructor's range validation. -/
def mkDateVal (isDt : Bool) (args : List Int) : Option PVal :=
  match args with
  | y :: m :: d :: rest =>
    if 0 ≤ y && 0 ≤ m && 0 ≤ d && validDate y.toNat m.toNat d.toNat &&
        (isDt || rest = []) && rest.length ≤ 4 &&
        rest.all (fun x => 0 ≤ x && x < 1000000) then
      some (if isDt then .datetime y.toNat m.toNat d.toNat else .date y.toNat m.toNat d.toNat)
    else Option.none
  | _ => Option.none

/-- Python `float` applied to a string: optional sign, a decimal
mantissa, an optional exponent (ASCII model, no inf or nan tokens). -/
def parseFloatQ (s : String) : Option Rat :=
  let cs := dropTrailWs (dropLeadWs s.data)
  let (neg, r0) := match cs with
    | '-' :: t => (true, t)
    | '+' :: t => (false, t)
    | _ => (false, cs)
  let (ip, r1) := takeDigits r0
  let mant : Option (Rat × List Char) :=
    match r1 with
    | '.' :: r2 =>
      let (fp, r3) := takeDigits r2
      if ip = [] && fp = [] then Option.none
      else some ((natOfDigits ip : Rat) + (natOfDigits fp : Rat) / ((10 : Rat) ^ fp.length), r3)
    | _ => if ip = [] then Option.none else some ((natOfDigits ip : Rat), r1)
  match mant with
  | Option.none => Option.none
  | some (m0, r3) =>
    let withExp : Option (Rat × List Char) :=
      match r3 with
      | 'e' :: t | 'E' :: t =>
        let (eneg, t2) := match t with
          | '+' :: u => (false, u)
          | '-' :: u => (true, u)
          | _ => (false, t)
        let (ds, r4) := takeDigits t2
        if ds = [] then Option.none
        else some (m0 * (10 : Rat) ^ (if eneg then -(natOfDigits ds : Int) else (natOfDigits ds : Int)), r4)
      | _ => some (m0, r3)
    match withExp with
    | some (q, []) => some (if neg then -q else q)
    | _ => Option.none

/-- Parse one tuple element of the rewritten literal. -/
def parsePVal (fuel : Nat) (cs0 : List Char) : Option (PVal × List Char) :=
  let cs := wsStar cs0
  match stripLit "None".data cs with
  | some r => some (.none, r)
  | Option.none =>
    match cs with
    | '\'' :: t =>
      match takeToQuote '\'' t with
      | some (a, r) => some (.s ⟨a⟩, r)
      | Option.none => Option.none
    | '"' :: t =>
      match takeToQuote '"' t with
      | some (a, r) => some (.s ⟨a⟩, r)
      | Option.none => Option.none
    | _ =>
      match stripLit "datetime(".data cs with
      | some r =>
        match parseIntArgs fuel r with
        | some (args, r2) =>
          match mkDateVal true args with
          | some v => some (v, r2)
          | Option.none => Option.none
        | Option.none => Option.none
      | Option.none =>
        match stripLit "date(".data cs with
        | some r =>
          match parseIntArgs fuel r with
          | some (args, r2) =>
            match mkDateVal false args with
            | some v => some (v, r2)
            | Option.none => Option.none
          | Option.none => Option.none
        | Option.none =>
          match stripLit "float(".data cs with
          | some r =>
            let r := wsStar r
            match r with
            | '\'' :: t =>
              match takeToQuote '\'' t with
              | some (a, r2) =>
                match parseFloatQ ⟨a⟩, wsStar r2 with
                | some q, ')' :: r3 => some (.f q, r3)
                | _, _ => Option.none
              | Option.none => Option.none
            | '"' :: t =>
              match takeToQuote '"' t with
              | some (a, r2) =>
                match parseFloatQ ⟨a⟩, wsStar r2 with
                | some q, ')' :: r3 => some (.f q, r3)
                | _, _ => Option.none
              | Option.none => Option.none
            | _ =>
              match parseNumTok r with
              | some (.i n, r2) =>
                match wsStar r2 with
                | ')' :: r3 => some (.f (n : Rat), r3)
                | _ => Option.none
              | some (.f q, r2) =>
                match wsStar r2 with
                | ')' :: r3 => some (.f q, r3)
                | _ => Option.none
              | _ => Option.none
          | Option.none => parseNumTok cs

/-- Parse the inside of one tuple, after its opening parenthesis. -/
def parseTupleTail : Nat → List Char → Option (List PVal × List Char)
  | 0, _ => Option.none
  | fuel + 1, cs =>
    match wsStar cs with
    | ')' :: r => some ([], r)
    | cs2 =>
      match parsePVal fuel cs2 with
      | some (v, r1) =>
        match wsStar r1 with
        | ')' :: r2 => some ([v], r2)
        | ',' :: r2 =>
          match wsStar r2 with
          | ')' :: r3 => some ([v], r3)
          | r3 =>
            match parseTupleTail fuel r3 with
            | some (vs, r4) => some (v :: vs, r4)
            | Option.none => Option.none
        | _ => Option.none
      | Option.none => Option.none

/-- Parse the inside of the tuple list, after its opening bracket. -/
def parseListTail : Nat → List Char → Option (List (List PVal) × List Char)
  | 0, _ => Option.none
  | fuel + 1, cs =>
    match wsStar cs with
    | ']' :: r => some ([], r)
    | '(' :: r =>
      match parseTupleTail fuel r with
      | some (tup, r1) =>
        match wsStar r1 with
        | ']' :: r2 => some ([tup], r2)
        | ',' :: r2 =>
          match wsStar r2 with
          | ']' :: r3 => some ([tup], r3)
          | r3 =>
            match parseListTail fuel r3 with
            | some (tups, r4) => some (tup :: tups, r4)
            | Option.none => Option.none
        | _ => Option.none
      | Option.none => Option.none
    | _ => Option.none

/-- Parse the whole rewritten slice as a list of tuples. -/
def parseTupleList (cs : List Char) : Option (List (List PVal)) :=
  match wsStar cs with
  | '[' :: r =>
    match parseListTail (cs.length + 1) r with
    | some (tups, rest) => if wsStar rest = [] then some tups else Option.none
    | Option.none => Option.none
  | _ => Option.none

/-- Index of the first occurrence of a character. -/
def firstIdxOf (c : Char) : List Char → Option Nat
  | [] => Option.none
  | d :: t =>
    if d = c then some 0
    else
      match firstIdxOf c t with
      | some i => some (i + 1)
      | Option.none => Option.none

/-- Index of the last occurrence of a character. -/
def lastIdxOf (c : Char) (l : List Char) : Option Nat :=
  match firstIdxOf c l.reverse with
  | some i => some (l.length - 1 - i)
  | Option.none => Option.none

/-- The fixed ten-column schema assumed for arity-ten tuples. -/
def sqlColumns10 : List String :=
  ["ID", "Security ID", "Date", "Open Price", "High Price",
   "Low Price", "Close Price", "Volume", "Adjusted Close", "Created At"]

/-- Column name for index `i`: the schema entry, or a generic name. -/
def colName (cols : List String) (i : Nat) : String :=
  match cols.get? i with
  | some c => c
  | Option.none => "Column " ++ natStr (i + 1)

/-- Display formatting of one tuple value under its column name. -/
def fmtSqlVal (col : String) (v : PVal) : String :=
  match v with
  | .none => "N/A"
  | .f q => if hasSub col "Price" then "$" ++ formatComma2 q else formatComma2 q
  | .date y m d => pad4 y ++ "-" ++ pad2 m ++ "-" ++ pad2 d
  | .datetime y m d => pad4 y ++ "-" ++ pad2 m ++ "-" ++ pad2 d
  | .i n => if hasSub col "Volume" then commaInt n else intStr n
  | .s v => v

/-- Row of one tuple, columns indexed from `i`. -/
def rowOfTupleGo (cols : List String) : Nat → List PVal → Row → Row
  | _, [], acc => acc
  | i, v :: vs, acc =>
    rowOfTupleGo cols (i + 1) vs (upsert acc (colName cols i) (fmtSqlVal (colName cols i) v))

/-- Strategy (a): slice from the first bracket to the last closing
bracket, rewrite the wrapper tokens, parse, and format positionally. -/
def parseSqlTuples (output : String) : List Row :=
  let cs := output.data
  match firstIdxOf '[' cs, lastIdxOf ']' cs with
  | some s, some e =>
    let sub := (cs.drop s).take (e + 1 - s)
    let sub := replaceAll "datetime.date".data "date".data sub
    let sub := replaceAll "datetime.datetime".data "datetime".data sub
    let sub := replaceAll "Decimal(".data "float(".data sub
    match parseTupleList sub with
    | some [] => []
    | some (t0 :: rest) =>
      let cols :=
        if t0.length = 10 then sqlColumns10
        else (List.range t0.length).map (fun i => "Column " ++ natStr (i + 1))
      (t0 :: rest).map (fun t => rowOfTupleGo cols 0 t [])
    | Option.none => []
  | _, _ => []

/-- Recognition condition of strategy (a). -/
def pat0Cond (output : String) : Bool :=
  listSub "datetime.date".data output.data && listSub "Decimal".data output.data &&
    listSub "[(".data output.data

/-- The table extractor `_extract_table_data`: strategy (a) falls
through when it yields nothing; strategies (b), (c) and (d) are gated on
their recognition conditions in an exclusive chain. -/
def extractTableData (output : String) : List Row :=
  let cs := output.data
  let p0 := if pat0Cond output then parseSqlTuples output else []
  if !p0.isEmpty then p0
  else
    let blocks := splitBlocks cs
    if !blocks.isEmpty then pattern1RowsOf blocks
    else if pat2Found cs then pattern2Rows cs
    else if pat3Cond cs then pattern3Rows cs
    else []

/-! ## Chart extraction (`_extract_chart_data`) -/

/-- A chart point value: the extractor only ever builds numeric values,
but the y-label check stringifies whatever is there, so the type keeps
the string case expressible. -/
inductive CVal where
  /-- A numeric (float) value. -/
  | num (q : Rat)
  /-- A string value. -/
  | vstr (v : String)
deriving DecidableEq, Repr

/-- A labelled chart point. -/
abbrev ChartPoint := String × CVal

/-- Python `str()` of a chart point value. -/
def strOfCVal : CVal → String
  | .num q => pyFloatStr q
  | .vstr v => v

/-- The numeric token of the chart regexes: a run of digits and commas,
an optional dot, then optional digits. -/
def numTokRegex (cs : List Char) : Option (List Char × List Char) :=
  let (dc, r1) := cs.span (fun c => c.isDigit || c = ',')
  if dc = [] then Option.none
  else
    match r1 with
    | '.' :: r2 =>
      let (ds, r3) := takeDigits r2
      some (dc ++ '.' :: ds, r3)
    | _ => some (dc, r1)

/-- Extend a label over lazy `whitespace words` groups until a colon. -/
def p1More : Nat → List Char → List Char → Option (List Char × List Char)
  | 0, _, _ => Option.none
  | fuel + 1, acc, rest =>
    match rest with
    | ':' :: r => some (acc, r)
    | c :: t =>
      if isPyWs c then
        let ws := c :: t.takeWhile isPyWs
        let r2 := t.dropWhile isPyWs
        let (w, r3) := r2.span isWordChar
        if w = [] then Option.none else p1More fuel (acc ++ ws ++ w) r3
      else Option.none
    | [] => Option.none

/-- First chart regex at one position: a multi-word label, a colon,
optional whitespace and dollar sign, then the numeric token. -/
def p1At (cs : List Char) : Option ((List Char × List Char) × List Char) :=
  let (w, r1) := cs.span isWordChar
  if w = [] then Option.none
  else
    match p1More (r1.length + 1) w r1 with
    | some (label, r2) =>
      let r3 := wsStar r2
      let r4 := match r3 with
        | '$' :: t => t
        | _ => r3
      match numTokRegex r4 with
      | some (num, r5) => some ((label, num), r5)
      | Option.none => Option.none
    | Option.none => Option.none

/-- Second chart regex at one position: an item number, a dot,
whitespace, a colon-free label, a colon, then the numeric token. -/
def p2cAt (cs : List Char) : Option ((List Char × List Char) × List Char) :=
  let (ds, r1) := takeDigits cs
  if ds = [] then Option.none
  else
    match r1 with
    | '.' :: r2 =>
      match r2 with
      | c :: t =>
        if isPyWs c then
          let wsRun := c :: t.takeWhile isPyWs
          let afterWs := t.dropWhile isPyWs
          let (lbl, r4) := afterWs.span (fun x => x ≠ ':')
          match r4 with
          | ':' :: r5 =>
            if lbl = [] && wsRun.length < 2 then Option.none
            else
              let label := if lbl = [] then (wsRun.getLastD ' ') :: [] else lbl
              let r6 := wsStar r5
              let r7 := match r6 with
                | '$' :: u => u
                | _ => r6
              match numTokRegex r7 with
              | some (num, r8) => some ((label, num), r8)
              | Option.none => Option.none
          | _ => Option.none
        else Option.none
      | [] => Option.none
    | _ => Option.none

/-- Third chart regex at one position: a lazy run of letters and
whitespace before the first reachable dash, then the numeric token. -/
def p3cFindDash : Nat → List Char → List Char → Option (List Char × List Char)
  | 0, _, _ => Option.none
  | fuel + 1, acc, rest =>
    match rest with
    | '-' :: r => if acc = [] then Option.none else some (acc.reverse, r)
    | c :: t =>
      if c.isAlpha || isPyWs c then p3cFindDash fuel (c :: acc) t
      else Option.none
    | [] => Option.none

/-- Third chart regex match at one position. -/
def p3cAt (cs : List Char) : Option ((List Char × List Char) × List Char) :=
  match p3cFindDash (cs.length + 1) [] cs with
  | some (run, r1) =>
    let lbl := dropTrailWs run
    let label := if lbl = [] then run.take 1 else lbl
    let r2 := wsStar r1
    let r3 := match r2 with
      | '$' :: t => t
      | _ => r2
    match numTokRegex r3 with
    | some (num, r4) => some ((label, num), r4)
    | Option.none => Option.none
  | Option.none => Option.none

/-- Non-overlapping left-to-right scan with a position-level matcher. -/
def scanMatches (matchAt : List Char → Option ((List Char × List Char) × List Char)) :
    Nat → List Char → List (List Char × List Char)
  | 0, _ => []
  | _ + 1, [] => []
  | fuel + 1, c :: t =>
    match matchAt (c :: t) with
    | some (m, rest) => m :: scanMatches matchAt fuel rest
    | Option.none => scanMatches matchAt fuel t

/-- Remove every occurrence of one character. -/
def removeChar (c : Char) (l : List Char) : List Char := l.filter (fun x => x ≠ c)

/-- Turn label-number matches into chart points: commas stripped, the
number parsed as a float, unparseable values skipped. -/
def pointsOfMatches (ms : List (List Char × List Char)) : List ChartPoint :=
  ms.filterMap (fun m =>
    match parseFloatQ ⟨removeChar ',' m.2⟩ with
    | some q => some (⟨pyStripL m.1⟩, CVal.num q)
    | Option.none => Option.none)

/-- The label-value regex pass of `_extract_chart_data`: the three
patterns tried in order, stopping at the first that yields points. -/
def extractChartRegexPass (output : String) : List ChartPoint :=
  let cs := output.data
  let m1 := pointsOfMatches (scanMatches p1At (cs.length + 1) cs)
  if !m1.isEmpty then m1
  else
    let m2 := pointsOfMatches (scanMatches p2cAt (cs.length + 1) cs)
    if !m2.isEmpty then m2
    else pointsOfMatches (scanMatches p3cAt (cs.length + 1) cs)

/-- Is the comma-and-dot-stripped value a nonempty digit string? -/
def isDigitStr (l : List Char) : Bool := !l.isEmpty && l.all Char.isDigit

/-- Scan one row for its first currency-shaped or numeric value. -/
def rowPointGo (firstVal : String) : List (String × String) → Option ChartPoint
  | [] => Option.none
  | (_, v) :: t =>
    let cond := v.data.contains '$' || isDigitStr (removeChar '.' (removeChar ',' v.data))
    if cond then
      match parseFloatQ ⟨removeChar ',' (removeChar '$' v.data)⟩ with
      | some q => some (firstVal, CVal.num q)
      | Option.none => rowPointGo firstVal t
    else rowPointGo firstVal t

/-- Fallback pass of `_extract_chart_data`: derive points from the table
extraction, labelling each by the row's first column value. -/
def tableFallbackPoints (output : String) : List ChartPoint :=
  (extractTableData output).filterMap (fun row =>
    match row.head? with
    | some kv => rowPointGo kv.2 row
    | Option.none => Option.none)

/-- The chart extractor `_extract_chart_data`. -/
def extractChartData (output : String) : List ChartPoint :=
  let p := extractChartRegexPass output
  if !p.isEmpty then p else tableFallbackPoints output

/-! ## Classifier and payload assembly (`ResponseFormatter`) -/

/-- The chart keyword vocabulary. -/
def chartKeywords : List String :=
  ["chart", "graph", "plot", "visualization", "compare", "comparison",
   "distribution", "trend", "performance", "top", "ranking", "vs"]

/-- The table keyword vocabulary. -/
def tableKeywords : List String :=
  ["list", "table", "records", "entries", "details", "show me",
   "portfolio", "transactions", "clients"]

/-- Bonus chart keywords matched against the rendered text. -/
def chartBonus : List String := ["top", "best", "worst", "compare", "vs"]

/-- Bonus table keywords matched against the rendered text. -/
def tableBonus : List String := ["records", "found", "list", "entries"]

/-- Chart score: keyword hits in the question plus bonus hits in the
rendered text. -/
def chartScore (question output : String) : Nat :=
  chartKeywords.countP (fun k => hasSub (pyLower question) k) +
    chartBonus.countP (fun k => hasSub (pyLower output) k)

/-- Table score: keyword hits in the question plus bonus hits in the
rendered text. -/
def tableScore (question output : String) : Nat :=
  tableKeywords.countP (fun k => hasSub (pyLower question) k) +
    tableBonus.countP (fun k => hasSub (pyLower output) k)

/-- Scan for the numeric pattern: a digit anywhere, or a dollar sign
followed by a digit or comma. -/
def hnGo : List Char → Bool
  | [] => false
  | c :: t =>
    (c = '$' && (match t with
      | d :: _ => d.isDigit || d = ','
      | [] => false)) ||
    c.isDigit || hnGo t

/-- The `has_numbers` signal of `_determine_response_type`. -/
def hasNumbersB (output : String) : Bool := hnGo output.data

/-- Scan for `Record ` followed by a digit. -/
def recNumGo : List Char → Bool
  | [] => false
  | c :: t =>
    (match stripLit "Record ".data (c :: t) with
     | some (d :: _) => d.isDigit
     | _ => false) ||
    recNumGo t

/-- The `has_structured_data` signal of `_determine_response_type`. -/
def hasStructuredB (output : String) : Bool :=
  listSub "Name:".data output.data || listSub "Age:".data output.data ||
    listSub "Value:".data output.data || recNumGo output.data

/-- The response classifier `_determine_response_type`. -/
def determineResponseType (question output : String) : String :=
  if chartScore question output > tableScore question output && hasNumbersB output then "chart"
  else if tableScore question output > 0 || hasStructuredB output then "table"
  else "text"

/-- The typed payload returned to the frontend. -/
inductive Payload where
  /-- A text payload with its word count metadata. -/
  | text (data : String) (wordCount : Nat)
  /-- A table payload with its column metadata. -/
  | table (rows : List Row) (cols : List String)
  /-- A chart payload. -/
  | chart (chartType : String) (points : List ChartPoint) (title xLabel yLabel : String)
deriving DecidableEq, Repr

/-- Word counting of Python's `str.split()` with no arguments. -/
def wcGo : List Char → Bool → Nat
  | [], _ => 0
  | c :: t, inw =>
    if isPyWs c then wcGo t false
    else (if inw then 0 else 1) + wcGo t true

/-- Length of `output.split()`. -/
def wordCount (s : String) : Nat := wcGo s.data false

/-- Chart type selection `_determine_chart_type`. -/
def determineChartType (question : String) (data : List ChartPoint) : String :=
  let ql := pyLower question
  if hasSub ql "distribution" || hasSub ql "breakdown" then "pie"
  else if hasSub ql "compare" || hasSub ql "vs" then "bar"
  else if hasSub ql "trend" || hasSub ql "over time" then "line"
  else if hasSub ql "top" || hasSub ql "ranking" then "bar"
  else "bar"

/-- Strip question marks from both ends. -/
def stripQmark (s : String) : String :=
  ⟨((s.data.dropWhile (fun c => c = '?')).reverse.dropWhile (fun c => c = '?')).reverse⟩

/-- Chart title generation `_generate_chart_title`. -/
def generateChartTitle (question : String) : String :=
  let title := titleStr (stripQmark question)
  if title.length > 50 then ⟨title.data.take 47⟩ ++ "..." else title

/-- X-axis label selection `_extract_x_label`. -/
def extractXLabel (question : String) (data : List ChartPoint) : String :=
  if hasSub (pyLower question) "client" then "Clients"
  else if hasSub (pyLower question) "portfolio" then "Portfolios"
  else if hasSub (pyLower question) "sector" then "Sectors"
  else "Categories"

/-- Y-axis label selection `_extract_y_label`. -/
def extractYLabel (question : String) (data : List ChartPoint) : String :=
  if data.any (fun p => hasSub (strOfCVal p.2) "$") then "Value ($)"
  else if hasSub (pyLower question) "count" || hasSub (pyLower question) "number" then "Count"
  else if hasSub (pyLower question) "percentage" || hasSub (pyLower question) "%" then
    "Percentage (%)"
  else "Value"

/-- Text payload assembly `_format_as_text`. -/
def formatAsText (output question : String) : Payload :=
  .text output (wordCount output)

/-- Table payload assembly `_format_as_table`, falling back to text. -/
def formatAsTable (output question : String) : Payload :=
  let td := extractTableData output
  if !td.isEmpty then
    .table td (match td.head? with
      | some r => r.map Prod.fst
      | Option.none => [])
  else formatAsText output question

/-- Chart payload assembly `_format_as_chart`, falling back to table. -/
def formatAsChart (output question : String) : Payload :=
  let cd := extractChartData output
  if !cd.isEmpty then
    .chart (determineChartType question cd) cd (generateChartTitle question)
      (extractXLabel question cd) (extractYLabel question cd)
  else formatAsTable output question

/-- The formatter entry point `format_response`. -/
def formatResponse (question output : String) : Payload :=
  let rt := determineResponseType question output
  if rt = "table" then formatAsTable output question
  else if rt = "chart" then formatAsChart output question
  else formatAsText output question

/-! ## Request handler error dispatch (`main.py`, `ask_question`) -/

/-- Outcome of invoking the external agent, at the boundary the handler
observes: a final output string, a `ValueError`, or any other raised
exception, each carrying its message. -/
inductive AgentResult where
  /-- The agent returned an output string. -/
  | ok (output : String)
  /-- The agent raised a `ValueError` with this message. -/
  | valueError (msg : String)
  /-- The agent raised some other exception with this message. -/
  | otherExc (msg : String)
deriving DecidableEq, Repr

/-- What the handler sends back for one agent outcome. -/
inductive AskOutcome where
  /-- A formatted payload. -/
  | success (p : Payload)
  /-- A scripted friendly text payload with its metadata error tag. -/
  | friendlyText (data : String) (errTag : String)
  /-- A service-level error with its detail string. -/
  | serverError (detail : String)
deriving DecidableEq, Repr

/-- The scripted suggestion used for agent parsing failures. -/
def friendlyParseMsg : String :=
  "I'm having trouble processing this query. Could you try rephrasing it more simply? For example: 'Show me clients from New York' or 'List top 5 portfolios by value'"

/-- The scripted suggestion used for tool failures. -/
def friendlyToolMsg : String :=
  "I'm having trouble understanding your request. Please try a simpler question like 'Find clients from New York' or 'Show top portfolios'"

/-- The post-agent part of `ask_question`: format a returned output, and
dispatch raised exceptions on their message substrings. -/
def askDispatch (question : String) (r : AgentResult) : AskOutcome :=
  match r with
  | .ok out => .success (formatResponse question out)
  | .valueError msg =>
    if hasSub msg "Agent stopped due to iteration limit" || hasSub msg "Invalid Format" ||
        hasSub msg "not a valid tool" then
      .friendlyText friendlyParseMsg "agent_parsing_error"
    else .serverError ("Agent error: " ++ msg)
  | .otherExc msg =>
    if hasSub msg "not a valid tool" || hasSub msg "Invalid Format" then
      .friendlyText friendlyToolMsg "tool_error"
    else .serverError ("Query execution failed: " ++ msg)

/-! ## Auxiliary predicates for the round-trip analysis (claim C2) -/

/-- Apply a function to the first element of a list of lines. -/
def modHead (f : List Char → List Char) : List (List Char) → List (List Char)
  | [] => []
  | x :: xs => f x :: xs

/-- Apply a function to the last element of a list of lines. -/
def modLast (g : List Char → List Char) : List (List Char) → List (List Char)
  | [] => []
  | [x] => [g x]
  | x :: y :: xs => x :: modLast g (y :: xs)

/-- Newline-join of all lines but with the last line trailing-stripped
and no newline terminators at the end: the shape of a stripped block. -/
def joinAlmost : List (List Char) → List Char
  | [] => []
  | [l] => dropTrailWs l
  | l :: m :: rest => l ++ '\n' :: joinAlmost (m :: rest)

/-- No suffix of the list starts with the record marker. -/
def noRecMarkB : List Char → Bool
  | [] => true
  | c :: t => !listPref recMark (c :: t) && noRecMarkB t

/-- The suffix-freeness property behind `noRecMarkB`. -/
def RFree (l : List Char) : Prop :=
  ∀ s : List Char, s <:+ l → listPref recMark s = false

/-- The list is empty or ends with a newline. -/
def EndsNl (l : List Char) : Prop := l = [] ∨ l.getLast? = some '\n'

/-- Cleanliness of a rendered key: no colon, no newline, and no record
marker inside the titled key. -/
def cleanPiece (t : List Char) : Bool :=
  t.all (fun c => !(c = ':') && !(c = '\n')) && noRecMarkB t

/-- Cleanliness of a rendered value: single line, no record marker. -/
def cleanValPiece (t : List Char) : Bool :=
  t.all (fun c => !(c = '\n')) && noRecMarkB t

/-- Cleanliness of one document field as rendered. -/
def cleanField : String × FVal → Bool
  | (k, FVal.base b) => cleanPiece (titleStr k).data && cleanValPiece (renderB b).data
  | (k, FVal.nested l) =>
    cleanPiece (titleStr k).data &&
      l.all (fun p => cleanPiece (titleStr p.1).data && cleanValPiece (renderB p.2).data)

/-- Cleanliness of one document: at least one field besides the internal
identifier, and every other field rendered cleanly. -/
def CleanRecord (r : Record) : Bool :=
  r.any (fun p => !(p.1 = "_id")) && r.all (fun p => p.1 = "_id" || cleanField p)

/-- The row the table extractor recovers from one record's rendered
block (body plus the trailing blank line of the block). -/
def rowOfRecord (r : Record) : Row := rowOfBlock (bodyChars r ++ ['\n'])

/-! ## Association list and counting lemmas -/

theorem lookupA_upsert_self {α : Type} (m : List (String × α)) (k : String) (v : α) :
    lookupA (upsert m k v) k = some v := by
  induction m with
  | nil => simp [upsert, lookupA]
  | cons p t ih =>
    obtain ⟨k', v'⟩ := p
    by_cases h : k' = k
    · simp [upsert, h, lookupA]
    · simp [upsert, h, lookupA, ih]

theorem lookupA_upsert_ne {α : Type} (m : List (String × α)) (k k' : String) (v : α)
    (h : k' ≠ k) : lookupA (upsert m k v) k' = lookupA m k' := by
  have hne : ¬ k = k' := fun hh => h hh.symm
  induction m with
  | nil =>
    simp only [upsert, lookupA]
    rw [if_neg hne]
  | cons p t ih =>
    obtain ⟨k0, v0⟩ := p
    by_cases h0 : k0 = k
    · subst h0
      simp only [upsert, if_pos rfl, lookupA]
      rw [if_neg hne, if_neg hne]
    · simp only [upsert, if_neg h0, lookupA]
      rw [ih]

theorem find?_of_filter_single {α : Type} (l : List α) (p : α → Bool) (x : α)
    (h : l.filter p = [x]) : l.find? p = some x := by
  induction l with
  | nil => simp at h
  | cons a t ih =>
    by_cases hp : p a
    · have hc : a :: t.filter p = [x] := by simpa [List.filter_cons, hp] using h
      have ha : a = x := (List.cons_eq_cons.mp hc).1
      subst ha
      simp [List.find?, hp]
    · have ht : t.filter p = [x] := by simpa [List.filter_cons, hp] using h
      simp only [List.find?]
      rw [show p a = false by simpa using hp]
      exact ih ht

theorem countP_ge_one {α : Type} (l : List α) (p : α → Bool) (x : α)
    (hx : x ∈ l) (hp : p x = true) : 1 ≤ l.countP p := by
  induction l with
  | nil => simp at hx
  | cons a t ih =>
    rcases List.mem_cons.mp hx with h | h
    · subst h
      simp [List.countP_cons, hp]
    · have := ih h
      simp [List.countP_cons]
      omega

/-! ## Preservation of filter entries across the translator rules -/

theorem lookupA_applyAge_ne (q : String) (m : MongoFilter) (k : String) (h : k ≠ "age") :
    lookupA (applyAge q m) k = lookupA m k := by
  unfold applyAge
  cases ageSearch q.data with
  | none => rfl
  | some a =>
    cases a with
    | b1 n mx => cases mx <;> simp [lookupA_upsert_ne _ _ _ _ h]
    | b2 n => simp [lookupA_upsert_ne _ _ _ _ h]

theorem lookupA_applyRisk_ne (q : String) (m : MongoFilter) (k : String)
    (h : k ≠ "risk_profile.tolerance") : lookupA (applyRisk q m) k = lookupA m k := by
  unfold applyRisk
  split_ifs <;> simp [lookupA_upsert_ne _ _ _ _ h]

theorem lookupA_applySector_ne (q : String) (m : MongoFilter) (k : String)
    (h : k ≠ "investment_preferences.preferred_sectors") :
    lookupA (applySector q m) k = lookupA m k := by
  unfold applySector
  cases sectorList.find? (fun s => hasSub q s) with
  | none => rfl
  | some s => simp [lookupA_upsert_ne _ _ _ _ h]

theorem lookupA_applyValue_ne (q : String) (m : MongoFilter) (k : String)
    (h : k ≠ "account_value") : lookupA (applyValue q m) k = lookupA m k := by
  unfold applyValue
  split_ifs <;> simp [lookupA_upsert_ne _ _ _ _ h]

/-! ## Claim C1 -/

/-- Claim C1, counterexample: on an empty record list both renderers
return the longer sentence "No matching records found in MongoDB.", not
the literal "No matching records found." the claim states. -/
theorem c1_counterexample :
    formatResults ([] : List Record) "any query" =
      Except.ok "No matching records found in MongoDB." ∧
    formatAggregationResults ([] : List AggRow) "any query" =
      "No matching records found in MongoDB." ∧
    ("No matching records found in MongoDB." : String) ≠ "No matching records found." := by
  refine ⟨rfl, rfl, by decide⟩

/-- Claim C1, amended: for every query string, both the record renderer
and the aggregation renderer applied to an empty list of records return
exactly the literal sentence "No matching records found in MongoDB.". -/
theorem c1_empty_renders_fixed_sentence (q : String) :
    formatResults ([] : List Record) q = Except.ok "No matching records found in MongoDB." ∧
    formatAggregationResults ([] : List AggRow) q = "No matching records found in MongoDB." :=
  ⟨rfl, rfl⟩

/-! ## Claim C4 -/

/-- Claim C4, counterexample: the phrase "clients from chicago" contains
"from" and exactly one listed city, chicago, yet the translated filter is
empty: the guard of the city rule only checks the first four cities. -/
theorem c4_counterexample :
    hasSub (pyLower "clients from chicago") "from" = true ∧
    cityList.filter (fun c => hasSub (pyLower "clients from chicago") c) = ["chicago"] ∧
    parseQueryToMongo "clients from chicago" = [] ∧
    lookupA (parseQueryToMongo "clients from chicago") "address.city" = none := by
  refine ⟨by decide, by decide, by decide, by decide⟩

/-- Claim C4, amended: for every phrase containing "from" and exactly one
of the seven listed cities, provided that city is one of the four guard
cities (new york, california, texas, florida), the translated filter
contains a case-insensitive contains-match on `address.city` equal to
that city. -/
theorem c4_city_filter (phrase city : String)
    (h1 : hasSub (pyLower phrase) "from" = true)
    (h2 : cityList.filter (fun c => hasSub (pyLower phrase) c) = [city])
    (h3 : city ∈ cityGuard) :
    lookupA (parseQueryToMongo phrase) "address.city" = some (MongoVal.regexI city) := by
  unfold parseQueryToMongo
  rw [lookupA_applyValue_ne _ _ _ (by decide), lookupA_applySector_ne _ _ _ (by decide),
    lookupA_applyRisk_ne _ _ _ (by decide), lookupA_applyAge_ne _ _ _ (by decide)]
  have hsub : hasSub (pyLower phrase) city = true := by
    have hm : city ∈ cityList.filter (fun c => hasSub (pyLower phrase) c) := by
      rw [h2]; exact List.mem_singleton.mpr rfl
    exact (List.mem_filter.mp hm).2
  have hany : cityGuard.any (fun c => hasSub (pyLower phrase) c) = true :=
    List.any_eq_true.mpr ⟨city, h3, hsub⟩
  have hfind : cityList.find? (fun c => hasSub (pyLower phrase) c) = some city :=
    find?_of_filter_single _ _ _ h2
  unfold applyCity
  rw [h1, hany, hfind]
  simp [lookupA_upsert_self]

/-- Witness for the amended C4 at the phrase "Find clients from New
York". -/
theorem c4_city_filter_witness :
    lookupA (parseQueryToMongo "Find clients from New York") "address.city" =
      some (MongoVal.regexI "new york") :=
  c4_city_filter "Find clients from New York" "new york" (by decide) (by decide) (by decide)

/-! ## Claim C6 -/

/-- Claim C6, counterexample: a `ValueError` whose message mentions the
third signal "not a valid tool" — neither of the two failure signals the
claim allows — is also converted to the friendly text payload instead of
propagating as a service-level error. -/
theorem c6_counterexample :
    hasSub "This is not a valid tool" "Agent stopped due to iteration limit" = false ∧
    hasSub "This is not a valid tool" "Invalid Format" = false ∧
    askDispatch "q" (AgentResult.valueError "This is not a valid tool") =
      AskOutcome.friendlyText friendlyParseMsg "agent_parsing_error" ∧
    askDispatch "q" (AgentResult.valueError "This is not a valid tool") ≠
      AskOutcome.serverError ("Agent error: " ++ "This is not a valid tool") := by
  refine ⟨by decide, by decide, by decide, by decide⟩

/-- Claim C6, amended: three message substrings are converted to a
friendly text payload — "Agent stopped due to iteration limit" (for a
`ValueError` only), "Invalid Format" and "not a valid tool" (for any
exception); every exception matching none of them propagates as a
service-level error. -/
theorem c6_error_dispatch (question msg : String) :
    (askDispatch question (AgentResult.valueError msg) =
        AskOutcome.friendlyText friendlyParseMsg "agent_parsing_error" ↔
      hasSub msg "Agent stopped due to iteration limit" = true ∨
        hasSub msg "Invalid Format" = true ∨ hasSub msg "not a valid tool" = true) ∧
    (askDispatch question (AgentResult.valueError msg) =
        AskOutcome.serverError ("Agent error: " ++ msg) ↔
      ¬(hasSub msg "Agent stopped due to iteration limit" = true ∨
        hasSub msg "Invalid Format" = true ∨ hasSub msg "not a valid tool" = true)) ∧
    (askDispatch question (AgentResult.otherExc msg) =
        AskOutcome.friendlyText friendlyToolMsg "tool_error" ↔
      hasSub msg "not a valid tool" = true ∨ hasSub msg "Invalid Format" = true) ∧
    (askDispatch question (AgentResult.otherExc msg) =
        AskOutcome.serverError ("Query execution failed: " ++ msg) ↔
      ¬(hasSub msg "not a valid tool" = true ∨ hasSub msg "Invalid Format" = true)) := by
  unfold askDispatch
  refine ⟨?_, ?_, ?_, ?_⟩ <;> (
    constructor
    · intro h
      by_contra hc
      simp only [Bool.or_eq_true] at h hc ⊢
      split at h <;> simp_all
    · intro h
      simp only [Bool.or_eq_true] at h ⊢
      split <;> simp_all)

/-- Witness for the amended C6 at a concrete iteration-limit message. -/
theorem c6_error_dispatch_witness :
    askDispatch "q" (AgentResult.valueError "Agent stopped due to iteration limit.") =
      AskOutcome.friendlyText friendlyParseMsg "agent_parsing_error" :=
  (c6_error_dispatch "q" "Agent stopped due to iteration limit.").1.mpr (by decide)

/-! ## Claim C7 -/

/-- Claim C7, counterexample: on this input the block strategy finds a
record delimiter but extracts zero rows, and the numbered-list strategy,
which would yield a row, is never attempted: the extractor returns the
empty result even though a later strategy had rows to give. -/
theorem c7_counterexample :
    pattern1RowsOf (splitBlocks ("1. X: 5\n--- Record 1 ---\nabc").data) = [] ∧
    pat2Found ("1. X: 5\n--- Record 1 ---\nabc").data = true ∧
    pattern2Rows ("1. X: 5\n--- Record 1 ---\nabc").data = [[("X", "5")]] ∧
    extractTableData "1. X: 5\n--- Record 1 ---\nabc" = [] := by
  refine ⟨by decide, by decide, by decide, by decide⟩

/-- Claim C7, amended: the four strategies are tried in program order,
but only strategy (a) falls through on a zero-row yield; strategies (b),
(c) and (d) are gated on recognition alone: (b) is chosen whenever a
record delimiter occurs (even if it extracts zero rows), (c) only when no
delimiter occurs and the numbered-list pattern is found, (d) only when
additionally the Found-plus-symbol condition holds; a zero-row overall
extraction makes table rendering fall back to text. -/
theorem c7_strategy_chain (output q : String) :
    (extractTableData output =
      (let p0 := if pat0Cond output then parseSqlTuples output else []
       if !p0.isEmpty then p0
       else if !(splitBlocks output.data).isEmpty then
         pattern1RowsOf (splitBlocks output.data)
       else if pat2Found output.data then pattern2Rows output.data
       else if pat3Cond output.data then pattern3Rows output.data
       else [])) ∧
    (extractTableData output = [] → formatAsTable output q = formatAsText output q) := by
  constructor
  · rfl
  · intro h
    unfold formatAsTable
    rw [h]
    rfl

/-- Witness for the amended C7 at an input with empty extraction. -/
theorem c7_strategy_chain_witness :
    formatAsTable "hello" "w" = formatAsText "hello" "w" :=
  (c7_strategy_chain "hello" "w").2 (by decide)

/-! ## Claim C8 -/

/-- Claim C8: the range phrase produces the between-filter and the
single-age phrase the equality filter, and in general a captured range
yields a between-filter on `age` while a single captured number yields an
equality filter on `age`. -/
theorem c8_age_rules :
    parseQueryToMongo "clients aged between 30-50" = [("age", MongoVal.rangeN 30 50)] ∧
    parseQueryToMongo "age 45" = [("age", MongoVal.eqNat 45)] ∧
    (∀ (q : String) (n mx : Nat), ageSearch (pyLower q).data = some (AgeM.b1 n (some mx)) →
      lookupA (parseQueryToMongo q) "age" = some (MongoVal.rangeN n mx)) ∧
    (∀ (q : String) (n : Nat), ageSearch (pyLower q).data = some (AgeM.b1 n none) →
      lookupA (parseQueryToMongo q) "age" = some (MongoVal.eqNat n)) ∧
    (∀ (q : String) (n : Nat), ageSearch (pyLower q).data = some (AgeM.b2 n) →
      lookupA (parseQueryToMongo q) "age" = some (MongoVal.eqNat n)) := by
  have base : ∀ (q : String) (a : AgeM), ageSearch (pyLower q).data = some a →
      lookupA (parseQueryToMongo q) "age" =
        lookupA (applyAge (pyLower q) (applyCity (pyLower q) [])) "age" := by
    intro q a _
    unfold parseQueryToMongo
    rw [lookupA_applyValue_ne _ _ _ (by decide), lookupA_applySector_ne _ _ _ (by decide),
      lookupA_applyRisk_ne _ _ _ (by decide)]
  refine ⟨by decide, by decide, ?_, ?_, ?_⟩
  · intro q n mx h
    rw [base q _ h]
    unfold applyAge
    rw [h]
    simp [lookupA_upsert_self]
  · intro q n h
    rw [base q _ h]
    unfold applyAge
    rw [h]
    simp [lookupA_upsert_self]
  · intro q n h
    rw [base q _ h]
    unfold applyAge
    rw [h]
    simp [lookupA_upsert_self]

/-- Witness for C8's general clauses at the two concrete phrases. -/
theorem c8_age_rules_witness :
    lookupA (parseQueryToMongo "clients aged between 30-50") "age" =
      some (MongoVal.rangeN 30 50) ∧
    lookupA (parseQueryToMongo "age 45") "age" = some (MongoVal.eqNat 45) :=
  ⟨c8_age_rules.2.2.1 "clients aged between 30-50" 30 50 (by decide),
   c8_age_rules.2.2.2.1 "age 45" 45 (by decide)⟩

/-! ## String prefix and substring lemmas -/

theorem strData_append (s t : String) : (s ++ t).data = s.data ++ t.data := rfl

theorem listPref_append {p q : List Char} (r : List Char) (h : listPref p q = true) :
    listPref p (q ++ r) = true := by
  induction p generalizing q with
  | nil => simp [listPref]
  | cons a as ih =>
    cases q with
    | nil => simp [listPref] at h
    | cons c cs =>
      simp only [listPref, Bool.and_eq_true] at h ⊢
      exact ⟨h.1, ih h.2⟩

theorem listSub_of_listPref {p l : List Char} (h : listPref p l = true) :
    listSub p l = true := by
  cases l with
  | nil =>
    cases p with
    | nil => rfl
    | cons a as => simp [listPref] at h
  | cons c t => simp [listSub, h]

theorem listSub_singleton_iff (c : Char) (l : List Char) :
    listSub [c] l = true ↔ c ∈ l := by
  induction l with
  | nil => simp [listSub, listPref]
  | cons d t ih =>
    simp only [listSub, Bool.or_eq_true, ih, List.mem_cons]
    constructor
    · rintro (h | h)
      · left
        simpa [listPref, Bool.and_eq_true] using h
      · right; exact h
    · rintro (h | h)
      · left
        subst h
        simp [listPref]
      · right; exact h

theorem listPref_self_append (p r : List Char) : listPref p (p ++ r) = true := by
  induction p with
  | nil => simp [listPref]
  | cons a as ih => simp [listPref, ih]

theorem listPref_map {p l : List Char} (f : Char → Char) (h : listPref p l = true) :
    listPref (p.map f) (l.map f) = true := by
  induction p generalizing l with
  | nil => simp [listPref]
  | cons a as ih =>
    cases l with
    | nil => simp [listPref] at h
    | cons c cs =>
      simp only [listPref, Bool.and_eq_true] at h
      simp only [List.map_cons, listPref, Bool.and_eq_true]
      refine ⟨?_, ih h.2⟩
      have hac : a = c := of_decide_eq_true h.1
      simp [hac]

/-! ## Digit-character lemmas -/

theorem digitChar_isDigit : ∀ n < 10, (digitChar n).isDigit = true := by decide

theorem natDigitsGo_digit (fuel : Nat) :
    ∀ n c, c ∈ natDigitsGo fuel n → c.isDigit = true := by
  induction fuel with
  | zero => intro n c h; simp [natDigitsGo] at h
  | succ f ih =>
    intro n c h
    rw [natDigitsGo] at h
    split at h
    · next hn =>
      have : c = digitChar n := by simpa using h
      subst this
      exact digitChar_isDigit n hn
    · rcases List.mem_append.mp h with h1 | h1
      · exact ih _ _ h1
      · have : c = digitChar (n % 10) := by simpa using h1
        subst this
        exact digitChar_isDigit _ (Nat.mod_lt _ (by omega))

theorem natDigits_digit (n : Nat) : ∀ c ∈ natDigits n, c.isDigit = true :=
  fun c h => natDigitsGo_digit _ _ _ h

theorem fracDigits6_digit (fr : Rat) : ∀ c ∈ fracDigits6 fr, c.isDigit = true := by
  intro c h
  simp only [fracDigits6] at h
  split at h
  · have hc : c = '0' := by simpa using h
    subst hc
    decide
  · rw [List.mem_reverse] at h
    have h2 := (List.dropWhile_sublist _).mem h
    have h3 := (List.take_sublist _ _).mem h2
    rcases List.mem_append.mp h3 with h4 | h4
    · exact natDigits_digit _ _ (List.mem_reverse.mp h4)
    · have hc : c = '0' := List.eq_of_mem_replicate h4
      subst hc
      decide

theorem pyFloatStr_no_dollar (q : Rat) : hasSub (pyFloatStr q) "$" = false := by
  have hmem : '$' ∉ (pyFloatStr q).data := by
    intro hm
    unfold pyFloatStr at hm
    rw [strData_append, strData_append, strData_append] at hm
    rcases List.mem_append.mp hm with h | h
    · rcases List.mem_append.mp h with h2 | h2
      · rcases List.mem_append.mp h2 with h3 | h3
        · split at h3
          · exact absurd h3 (by decide)
          · exact absurd h3 (by decide)
        · have hd := natDigits_digit _ _ h3
          exact absurd hd (by decide)
      · exact absurd h2 (by decide)
    · have hd := fracDigits6_digit _ _ h
      exact absurd hd (by decide)
  cases hval : hasSub (pyFloatStr q) "$" with
  | false => rfl
  | true =>
    have : '$' ∈ (pyFloatStr q).data := (listSub_singleton_iff '$' _).mp hval
    exact absurd this hmem

/-! ## Claim C3 -/

/-- Claim C3: the classifier is the stated total deterministic decision
function of the two scores and two text signals, and in particular a
question with no chart or table keywords together with a text carrying no
bonus keywords and no numeric or structured markers classifies as
"text". -/
theorem c3_classifier (question output : String) :
    (determineResponseType question output = "chart" ↔
      tableScore question output < chartScore question output ∧ hasNumbersB output = true) ∧
    (determineResponseType question output = "table" ↔
      ¬(tableScore question output < chartScore question output ∧ hasNumbersB output = true) ∧
        (0 < tableScore question output ∨ hasStructuredB output = true)) ∧
    (determineResponseType question output = "text" ↔
      ¬(tableScore question output < chartScore question output ∧ hasNumbersB output = true) ∧
        ¬(0 < tableScore question output ∨ hasStructuredB output = true)) ∧
    (chartScore question output = 0 → tableScore question output = 0 →
      hasNumbersB output = false → hasStructuredB output = false →
      determineResponseType question output = "text") := by
  have hc : ((decide (chartScore question output > tableScore question output) &&
      hasNumbersB output) = true) ↔
      (tableScore question output < chartScore question output ∧ hasNumbersB output = true) := by
    simp [Bool.and_eq_true]
  have ht : ((decide (tableScore question output > 0) || hasStructuredB output) = true) ↔
      (0 < tableScore question output ∨ hasStructuredB output = true) := by
    simp [Bool.or_eq_true]
  unfold determineResponseType
  split_ifs with h1 h2
  · rw [hc] at h1
    refine ⟨⟨fun _ => h1, fun _ => rfl⟩, ?_, ?_, ?_⟩
    · exact ⟨fun h => absurd h (by decide), fun h => absurd h1 h.1⟩
    · exact ⟨fun h => absurd h (by decide), fun h => absurd h1 h.1⟩
    · intro hcs _ _ _
      exact absurd h1.1 (by omega)
  · rw [hc] at h1
    rw [ht] at h2
    refine ⟨?_, ⟨fun _ => ⟨h1, h2⟩, fun _ => rfl⟩, ?_, ?_⟩
    · exact ⟨fun h => absurd h (by decide), fun h => absurd h h1⟩
    · exact ⟨fun h => absurd h (by decide), fun h => absurd h2 h.2⟩
    · intro _ hts _ hs
      rcases h2 with h2 | h2
      · exact absurd h2 (by omega)
      · rw [hs] at h2
        exact absurd h2 (by decide)
  · rw [hc] at h1
    rw [ht] at h2
    exact ⟨⟨fun h => absurd h (by decide), fun h => absurd h h1⟩,
      ⟨fun h => absurd h (by decide), fun h => absurd h.2 h2⟩,
      ⟨fun _ => ⟨h1, h2⟩, fun _ => rfl⟩, fun _ _ _ _ => rfl⟩

/-- Witness for C3's particular clause at a keyword-free pair. -/
theorem c3_classifier_witness : determineResponseType "hello" "ok" = "text" :=
  (c3_classifier "hello" "ok").2.2.2 (by decide) (by decide) (by decide) (by decide)

/-! ## Claim C9 -/

/-- Prefix fact: `found` is a lowered prefix of `Found ` plus anything. -/
theorem listPref_found_word (l : List Char) :
    listPref "found".data ("Found ".data.map Char.toLower ++ l) = true := by
  simp [listPref]

/-- Every successful nonempty rendering starts with the word `Found`,
case-insensitively. -/
theorem formatResults_found {rs : List Record} {q out : String}
    (hne : rs ≠ []) (h : formatResults rs q = Except.ok out) :
    listPref "found".data (out.data.map Char.toLower) = true := by
  unfold formatResults at h
  rw [if_neg (by simpa [List.isEmpty_iff] using hne)] at h
  split at h
  · unfold summaryView at h
    cases hs : summaryLines 0 (rs.take 5) with
    | error e =>
      rw [hs] at h
      exact absurd h (by simp [Bind.bind, Except.bind])
    | ok ls =>
      rw [hs] at h
      have hout : out = "Found " ++ natStr rs.length ++
          " matching clients.\n\nSample results:\n" ++ ls ++
          (if rs.length > 5 then
            "... and " ++ natStr (rs.length - 5) ++ " more results.\n" else "") := by
        simpa [Bind.bind, Except.bind, pure, Except.pure] using h.symm
      subst hout
      simp only [strData_append, List.map_append]
      apply listPref_append
      apply listPref_append
      apply listPref_append
      apply listPref_append
      exact listPref_found_word _
  · have hout : out = detailedView rs := by
      simpa [pure, Except.pure] using h.symm
    subst hout
    unfold detailedView
    show listPref "found".data ((("Found " ++ natStr rs.length ++
      " matching records:\n\n").data ++ blocksChars 1 rs).map Char.toLower) = true
    simp only [strData_append, List.map_append]
    apply listPref_append
    apply listPref_append
    apply listPref_append
    exact listPref_found_word _

/-- Claim C9: a rendered text containing "found" case-insensitively gives
table score at least one, so the classifier result is "table" or "chart"
and never "text"; and every successful nonempty record-renderer output
contains it, since it begins with "Found". -/
theorem c9_found_never_text :
    (∀ question output : String, hasSub (pyLower output) "found" = true →
      1 ≤ tableScore question output ∧
      determineResponseType question output ≠ "text" ∧
      (determineResponseType question output = "table" ∨
        determineResponseType question output = "chart")) ∧
    (∀ (rs : List Record) (q out : String), rs ≠ [] → formatResults rs q = Except.ok out →
      hasSub (pyLower out) "found" = true) := by
  constructor
  · intro question output h
    have hscore : 1 ≤ tableScore question output := by
      have hb : 1 ≤ tableBonus.countP (fun k => hasSub (pyLower output) k) :=
        countP_ge_one _ _ "found" (by decide) h
      unfold tableScore
      omega
    have hcond : (decide (tableScore question output > 0) || hasStructuredB output) = true := by
      have : tableScore question output > 0 := hscore
      simp [this]
    refine ⟨hscore, ?_, ?_⟩
    · unfold determineResponseType
      split_ifs with h1 h2
      all_goals first
        | decide
        | exact absurd hcond h2
    · unfold determineResponseType
      split_ifs with h1 h2
      all_goals first
        | exact Or.inl rfl
        | exact Or.inr rfl
        | exact absurd hcond h2
  · intro rs q out hne h
    have hpref := formatResults_found hne h
    unfold hasSub pyLower
    show listSub "found".data (out.data.map Char.toLower) = true
    exact listSub_of_listPref hpref

/-- Witness for C9 at a concrete rendering of one record. -/
theorem c9_found_never_text_witness :
    hasSub (pyLower "Found 1 matching records:\n\n--- Record 1 ---\nName: Bob\n\n")
      "found" = true ∧
    determineResponseType "q" "Found 1 matching records:\n\n--- Record 1 ---\nName: Bob\n\n" ≠
      "text" :=
  ⟨c9_found_never_text.2 [[("name", FVal.base (BVal.s "Bob"))]] "q"
      "Found 1 matching records:\n\n--- Record 1 ---\nName: Bob\n\n" (by decide) (by decide),
   (c9_found_never_text.1 "q" "Found 1 matching records:\n\n--- Record 1 ---\nName: Bob\n\n"
      (c9_found_never_text.2 [[("name", FVal.base (BVal.s "Bob"))]] "q"
        "Found 1 matching records:\n\n--- Record 1 ---\nName: Bob\n\n"
        (by decide) (by decide))).2.1⟩

/-! ## Claim C10 -/

/-- Points built from label-number matches are always numeric. -/
theorem pointsOfMatches_num (ms : List (List Char × List Char)) :
    ∀ p ∈ pointsOfMatches ms, ∃ q : Rat, p.2 = CVal.num q := by
  intro p hp
  unfold pointsOfMatches at hp
  obtain ⟨m, -, hm⟩ := List.mem_filterMap.mp hp
  cases hq : parseFloatQ ⟨removeChar ',' m.2⟩ with
  | none =>
    rw [hq] at hm
    exact absurd hm (by simp)
  | some q =>
    rw [hq] at hm
    injection hm with hm2
    exact ⟨q, by rw [← hm2]⟩

/-- The regex pass yields only numeric points. -/
theorem extractChartRegexPass_num (output : String) :
    ∀ p ∈ extractChartRegexPass output, ∃ q : Rat, p.2 = CVal.num q := by
  intro p hp
  simp only [extractChartRegexPass] at hp
  split_ifs at hp <;> exact pointsOfMatches_num _ p hp

/-- Claim C10: every point of the chart extractor's label-value regex
pass carries a numeric float value, never a string with a currency sign;
consequently the y-axis label for such a point list is decided only by
the question's count and percentage keywords or the default "Value", and
the currency branch "Value ($)" is unreachable. -/
theorem c10_regex_pass_numeric :
    (∀ output : String, ∀ p ∈ extractChartRegexPass output, ∃ q : Rat, p.2 = CVal.num q) ∧
    (∀ question output : String,
      extractYLabel question (extractChartRegexPass output) =
        (if hasSub (pyLower question) "count" || hasSub (pyLower question) "number" then
          "Count"
         else if hasSub (pyLower question) "percentage" || hasSub (pyLower question) "%" then
          "Percentage (%)"
         else "Value")) ∧
    (∀ question output : String,
      extractYLabel question (extractChartRegexPass output) ≠ "Value ($)") := by
  have hlabel : ∀ question output : String,
      extractYLabel question (extractChartRegexPass output) =
        (if hasSub (pyLower question) "count" || hasSub (pyLower question) "number" then
          "Count"
         else if hasSub (pyLower question) "percentage" || hasSub (pyLower question) "%" then
          "Percentage (%)"
         else "Value") := by
    intro question output
    have hany : (extractChartRegexPass output).any
        (fun p => hasSub (strOfCVal p.2) "$") = false := by
      rw [List.any_eq_false]
      intro p hp
      obtain ⟨q, hq⟩ := extractChartRegexPass_num output p hp
      rw [hq]
      show ¬ hasSub (pyFloatStr q) "$" = true
      rw [pyFloatStr_no_dollar]
      decide
    unfold extractYLabel
    rw [hany]
    simp only [Bool.false_eq_true, if_false]
  refine ⟨extractChartRegexPass_num, hlabel, ?_⟩
  intro question output
  rw [hlabel]
  split_ifs <;> decide

/-- Witness for C10 at a concrete extraction. -/
theorem c10_regex_pass_numeric_witness :
    (("A", CVal.num 5) ∈ extractChartRegexPass "A: 5" ∧
      ∃ q : Rat, ("A", CVal.num 5).2 = CVal.num q) ∧
    extractYLabel "how many" (extractChartRegexPass "A: 5") ≠ "Value ($)" :=
  ⟨⟨by decide, c10_regex_pass_numeric.1 "A: 5" ("A", CVal.num 5) (by decide)⟩,
   c10_regex_pass_numeric.2.2 "how many" "A: 5"⟩

/-! ## Claim C5 -/

/-- Nonemptiness from the negated-isEmpty guard. -/
theorem ne_nil_of_not_isEmpty {α : Type} {l : List α} (h : (!l.isEmpty) = true) : l ≠ [] := by
  cases l with
  | nil => simp at h
  | cons a t => simp

/-- Text assembly never produces a table payload. -/
theorem formatAsText_ne_table (o q : String) (rows : List Row) (cols : List String) :
    formatAsText o q ≠ Payload.table rows cols := by
  unfold formatAsText
  intro h
  exact Payload.noConfusion h

/-- Table assembly only produces nonempty table payloads. -/
theorem formatAsTable_table (o q : String) (rows : List Row) (cols : List String)
    (h : formatAsTable o q = Payload.table rows cols) : rows ≠ [] := by
  simp only [formatAsTable] at h
  split_ifs at h with hne
  · injection h with h1 h2
    rw [← h1]
    exact ne_nil_of_not_isEmpty hne
  · exact absurd h (formatAsText_ne_table o q rows cols)

/-- Table assembly never produces a chart payload. -/
theorem formatAsTable_ne_chart (o q ct ti xl yl : String) (pts : List ChartPoint) :
    formatAsTable o q ≠ Payload.chart ct pts ti xl yl := by
  simp only [formatAsTable, formatAsText]
  split_ifs <;> exact fun h => Payload.noConfusion h

/-- Chart assembly only produces nonempty chart payloads. -/
theorem formatAsChart_chart (o q ct ti xl yl : String) (pts : List ChartPoint)
    (h : formatAsChart o q = Payload.chart ct pts ti xl yl) : pts ≠ [] := by
  simp only [formatAsChart] at h
  split_ifs at h with hne
  · injection h with h1 h2
    rw [← h2]
    exact ne_nil_of_not_isEmpty hne
  · exact absurd h (formatAsTable_ne_chart o q ct ti xl yl pts)

/-- Chart assembly passes the table invariant through its fallback. -/
theorem formatAsChart_table (o q : String) (rows : List Row) (cols : List String)
    (h : formatAsChart o q = Payload.table rows cols) : rows ≠ [] := by
  simp only [formatAsChart] at h
  split_ifs at h with hne
  all_goals first
    | exact Payload.noConfusion h
    | exact formatAsTable_table o q rows cols h

/-- Claim C5: in every payload the formatter produces, a table payload
has a nonempty row list and a chart payload a nonempty point list. -/
theorem c5_payload_invariant (question output : String) :
    (∀ (rows : List Row) (cols : List String),
      formatResponse question output = Payload.table rows cols → rows ≠ []) ∧
    (∀ (ct ti xl yl : String) (pts : List ChartPoint),
      formatResponse question output = Payload.chart ct pts ti xl yl → pts ≠ []) := by
  constructor
  · intro rows cols h
    simp only [formatResponse] at h
    split_ifs at h
    · exact formatAsTable_table _ _ _ _ h
    · exact formatAsChart_table _ _ _ _ h
    · exact absurd h (formatAsText_ne_table _ _ _ _)
  · intro ct ti xl yl pts h
    simp only [formatResponse] at h
    split_ifs at h
    · exact absurd h (formatAsTable_ne_chart _ _ _ _ _ _ _)
    · exact formatAsChart_chart _ _ _ _ _ _ _ h
    · simp only [formatAsText] at h
      exact absurd h (by intro hc; exact Payload.noConfusion hc)

/-- Witness for C5 at a concrete table response. -/
theorem c5_payload_invariant_witness :
    formatResponse "list" "--- Record 1 ---\nName: Bob\n" =
      Payload.table [[("Name", "Bob")]] ["Name"] ∧
    ([[("Name", "Bob")]] : List Row) ≠ [] :=
  ⟨by decide,
   (c5_payload_invariant "list" "--- Record 1 ---\nName: Bob\n").1
     [[("Name", "Bob")]] ["Name"] (by decide)⟩

/-! ## Claim C2: prefix and suffix toolkit -/

theorem listPref_refl (p : List Char) : listPref p p = true := by
  induction p with
  | nil => rfl
  | cons a as ih => simp [listPref, ih]

theorem listPref_length {p q : List Char} (h : listPref p q = true) :
    p.length ≤ q.length := by
  induction p generalizing q with
  | nil => simp
  | cons a as ih =>
    cases q with
    | nil => simp [listPref] at h
    | cons c cs =>
      simp only [listPref, Bool.and_eq_true] at h
      have := ih h.2
      simp only [List.length_cons]
      omega

theorem mem_of_listPref {p q : List Char} (h : listPref p q = true) :
    ∀ x ∈ p, x ∈ q := by
  induction p generalizing q with
  | nil => simp
  | cons a as ih =>
    cases q with
    | nil => simp [listPref] at h
    | cons c cs =>
      simp only [listPref, Bool.and_eq_true] at h
      intro x hx
      rcases List.mem_cons.mp hx with hx | hx
      · have hac : a = c := of_decide_eq_true h.1
        rw [hx, hac]
        exact List.mem_cons_self c cs
      · exact List.mem_cons_of_mem _ (ih h.2 x hx)

theorem mem_of_getLast?_eq : ∀ {l : List Char} {c : Char}, l.getLast? = some c → c ∈ l
  | [], _, h => by simp at h
  | [a], c, h => by
    simp only [List.getLast?_singleton, Option.some.injEq] at h
    simp [h]
  | _ :: b :: t, _, h => by
    rw [List.getLast?_cons_cons] at h
    exact List.mem_cons_of_mem _ (mem_of_getLast?_eq h)

theorem head_dash_of_listPref_recMark {c : Char} {t : List Char}
    (hp : listPref recMark (c :: t) = true) : c = '-' := by
  rw [show recMark = '-' :: "-- Record ".data from rfl] at hp
  simp only [listPref, Bool.and_eq_true] at hp
  exact (of_decide_eq_true hp.1).symm

theorem listPref_eq_of_length {p q : List Char} (h : listPref p q = true)
    (hl : q.length ≤ p.length) : p = q := by
  induction p generalizing q with
  | nil =>
    cases q with
    | nil => rfl
    | cons c cs => simp at hl
  | cons a as ih =>
    cases q with
    | nil => simp [listPref] at h
    | cons c cs =>
      simp only [listPref, Bool.and_eq_true] at h
      have hac : a = c := of_decide_eq_true h.1
      have : cs.length ≤ as.length := by
        simp only [List.length_cons] at hl
        omega
      rw [hac, ih h.2 this]

theorem listPref_drop_append {p a b : List Char} (h : listPref p (a ++ b) = true) :
    listPref p a = true ∨
      (listPref a p = true ∧ listPref (p.drop a.length) b = true) := by
  induction a generalizing p with
  | nil =>
    right
    exact ⟨rfl, by simpa using h⟩
  | cons x xs ih =>
    cases p with
    | nil => left; rfl
    | cons y ys =>
      simp only [List.cons_append, listPref, Bool.and_eq_true] at h
      rcases ih h.2 with h2 | h2
      · left
        simp [listPref, h.1, h2]
      · right
        refine ⟨?_, ?_⟩
        · have hyx : y = x := of_decide_eq_true h.1
          simp [listPref, hyx, h2.1]
        · simpa using h2.2

theorem suffix_append_cases {s a b : List Char} (h : s <:+ a ++ b) :
    s <:+ b ∨ ∃ s', s' <:+ a ∧ s' ≠ [] ∧ s = s' ++ b := by
  induction a with
  | nil => exact Or.inl (by simpa using h)
  | cons x xs ih =>
    rcases (List.suffix_cons_iff).mp (by simpa using h) with h1 | h1
    · right
      exact ⟨x :: xs, List.suffix_refl _, by simp, by simpa using h1⟩
    · rcases ih h1 with h2 | ⟨s', hs', hne, rfl⟩
      · exact Or.inl h2
      · exact Or.inr ⟨s', hs'.trans (List.suffix_cons x xs), hne, rfl⟩

theorem getLast?_of_suffix {s a : List Char} (h : s <:+ a) (hne : s ≠ []) :
    s.getLast? = a.getLast? := by
  obtain ⟨t, rfl⟩ := h
  rw [List.getLast?_append_of_ne_nil _ hne]

theorem rfree_nil : RFree [] := by
  intro s hs
  have : s = [] := List.eq_nil_of_suffix_nil hs
  subst this
  rfl

theorem rfree_tail {c : Char} {t : List Char} (h : RFree (c :: t)) : RFree t :=
  fun s hs => h s (hs.trans (List.suffix_cons c t))

theorem rfree_cons {c : Char} {t : List Char} (hc : c ≠ '-') (h : RFree t) :
    RFree (c :: t) := by
  intro s hs
  rcases List.suffix_cons_iff.mp hs with h1 | h1
  · subst h1
    cases hp : listPref recMark (c :: t) with
    | false => rfl
    | true => exact absurd (head_dash_of_listPref_recMark hp) hc
  · exact h s h1

theorem not_listPref_recMark_parts {s' b : List Char}
    (hs : listPref recMark s' = false)
    (hlast : s'.getLast? = some '\n') : listPref recMark (s' ++ b) = false := by
  cases hp : listPref recMark (s' ++ b) with
  | false => rfl
  | true =>
    exfalso
    rcases listPref_drop_append hp with h1 | ⟨h1, h2⟩
    · rw [hs] at h1
      exact Bool.noConfusion h1
    · by_cases hlen : recMark.length ≤ s'.length
      · have hse : s' = recMark := listPref_eq_of_length h1 hlen
        subst hse
        rw [listPref_refl] at hs
        exact Bool.noConfusion hs
      · have hmem : '\n' ∈ recMark :=
          mem_of_listPref h1 _ (mem_of_getLast?_eq hlast)
        exact absurd hmem (by decide)

theorem rfree_append {a b : List Char} (ha : RFree a) (hb : RFree b)
    (hnl : EndsNl a) : RFree (a ++ b) := by
  intro s hs
  rcases suffix_append_cases hs with h1 | ⟨s', hs', hne, rfl⟩
  · exact hb s h1
  · refine not_listPref_recMark_parts (ha s' hs') ?_
    rcases hnl with h | h
    · subst h
      exact absurd (List.eq_nil_of_suffix_nil hs') hne
    · rw [getLast?_of_suffix hs' hne, h]

theorem rfree_append_sep {a b : List Char} {c : Char} (ha : RFree a) (hb : RFree b)
    (hc : c ∉ recMark) : RFree (a ++ c :: b) := by
  intro s hs
  rcases suffix_append_cases hs with h1 | ⟨s', hs', hne, rfl⟩
  · rcases List.suffix_cons_iff.mp h1 with h2 | h2
    · subst h2
      cases hp : listPref recMark (c :: b) with
      | false => rfl
      | true =>
        exfalso
        exact hc ((head_dash_of_listPref_recMark hp) ▸ (by decide : '-' ∈ recMark))
    · exact hb s h2
  · cases hp : listPref recMark (s' ++ c :: b) with
    | false => rfl
    | true =>
      exfalso
      rcases listPref_drop_append hp with h1 | ⟨h1, h2⟩
      · rw [ha s' hs'] at h1
        exact Bool.noConfusion h1
      · by_cases hlen : recMark.length ≤ s'.length
        · have hse : s' = recMark := listPref_eq_of_length h1 hlen
          have hcontra := ha s' hs'
          rw [hse, listPref_refl] at hcontra
          exact Bool.noConfusion hcontra
        · cases hd : recMark.drop s'.length with
          | nil =>
            have := List.drop_eq_nil_iff_le.mp hd
            omega
          | cons d ds =>
            rw [hd] at h2
            have hdc : d = c := of_decide_eq_true ((Bool.and_eq_true _ _ ▸ h2).1)
            have hdm : d ∈ recMark := by
              have hdd : d ∈ recMark.drop s'.length := by
                rw [hd]
                exact List.mem_cons_self _ _
              exact List.drop_subset _ _ hdd
            exact hc (hdc ▸ hdm)

theorem stripLit_self_append (p r : List Char) : stripLit p (p ++ r) = some r := by
  induction p with
  | nil => rfl
  | cons a as ih => simp [stripLit, ih]

theorem stripLit_isPref {p s r : List Char} (h : stripLit p s = some r) :
    listPref p s = true := by
  induction p generalizing s with
  | nil =>
    cases s <;> rfl
  | cons a as ih =>
    cases s with
    | nil => simp [stripLit] at h
    | cons c cs =>
      simp only [stripLit] at h
      split at h
      · next heq =>
        simp only [listPref, Bool.and_eq_true]
        exact ⟨by simp [heq], ih h⟩
      · exact absurd h (by simp)

theorem delimAt_nil : delimAt [] = none := rfl

theorem delimStartB_nil : delimStartB [] = false := rfl

theorem delimAt_isPref {cs r : List Char} (h : delimAt cs = some r) :
    listPref recMark cs = true := by
  unfold delimAt at h
  cases h1 : stripLit recMark cs with
  | none =>
    rw [h1] at h
    simp at h
  | some r1 => exact stripLit_isPref h1

theorem delimStartB_isPref {cs : List Char} (h : delimStartB cs = true) :
    listPref recMark cs = true := by
  unfold delimStartB at h
  cases h1 : stripLit recMark cs with
  | none =>
    rw [h1] at h
    simp at h
  | some r1 => exact stripLit_isPref h1

theorem delimAt_delim (i : Nat) (hi : i ≤ 10) (rest : List Char) :
    delimAt (delimChars i ++ rest) = some rest := by
  interval_cases i <;> rfl

theorem delimStartB_delim (i : Nat) (hi : i ≤ 10) (rest : List Char) :
    delimStartB (delimChars i ++ rest) = true := by
  interval_cases i <;> rfl

theorem scan_of_delimAt {cs r : List Char} (h : delimAt cs = some r) :
    scanToDelim cs = some r := by
  cases cs with
  | nil =>
    rw [delimAt_nil] at h
    exact absurd h (by simp)
  | cons c t =>
    rw [scanToDelim, h]

theorem endsNl_tail {c : Char} {t : List Char} (h : EndsNl (c :: t)) : EndsNl t := by
  cases t with
  | nil => exact Or.inl rfl
  | cons d t' =>
    rcases h with h | h
    · exact absurd h (by simp)
    · right
      rw [List.getLast?_cons_cons] at h
      exact h

theorem listPref_recMark_false_of_parts {a b : List Char} (ha : RFree a)
    (hnl : EndsNl a) (hne : a ≠ []) : listPref recMark (a ++ b) = false := by
  refine not_listPref_recMark_parts (ha a (List.suffix_refl _)) ?_
  rcases hnl with h | h
  · exact absurd h hne
  · exact h

theorem scan_append_skip {a : List Char} (b : List Char) (ha : RFree a)
    (hnl : EndsNl a) : scanToDelim (a ++ b) = scanToDelim b := by
  induction a with
  | nil => rfl
  | cons c a' ih =>
    have hnone : delimAt ((c :: a') ++ b) = none := by
      cases hda : delimAt ((c :: a') ++ b) with
      | none => rfl
      | some r =>
        exfalso
        have hp := delimAt_isPref hda
        rw [listPref_recMark_false_of_parts ha hnl (by simp)] at hp
        exact Bool.noConfusion hp
    rw [List.cons_append, scanToDelim]
    rw [List.cons_append] at hnone
    rw [hnone]
    exact ih (rfree_tail ha) (endsNl_tail hnl)

theorem takeBlock_exact {a b : List Char} (ha : RFree a) (hnl : EndsNl a)
    (hb : b = [] ∨ delimStartB b = true) : takeBlock (a ++ b) = (a, b) := by
  induction a with
  | nil =>
    rcases hb with hb | hb
    · subst hb
      rfl
    · cases b with
      | nil => rw [delimStartB_nil] at hb; exact Bool.noConfusion hb
      | cons c t =>
        rw [List.nil_append, takeBlock, if_pos hb]
  | cons c a' ih =>
    have hfalse : delimStartB ((c :: a') ++ b) = false := by
      cases hds : delimStartB ((c :: a') ++ b) with
      | false => rfl
      | true =>
        exfalso
        have hp := delimStartB_isPref hds
        rw [listPref_recMark_false_of_parts ha hnl (by simp)] at hp
        exact Bool.noConfusion hp
    rw [List.cons_append, takeBlock]
    rw [List.cons_append] at hfalse
    rw [if_neg (by rw [hfalse]; exact fun hx => Bool.noConfusion hx)]
    rw [ih (rfree_tail ha) (endsNl_tail hnl)]

theorem splitBlocksGo_nil (fuel : Nat) : splitBlocksGo fuel [] = [] := by
  cases fuel <;> rfl

theorem splitBlocksGo_skip (fuel : Nat) {a : List Char} (b : List Char)
    (ha : RFree a) (hnl : EndsNl a) :
    splitBlocksGo fuel (a ++ b) = splitBlocksGo fuel b := by
  cases fuel with
  | zero => rfl
  | succ f =>
    simp only [splitBlocksGo]
    rw [scan_append_skip b ha hnl]

theorem getLast?_append_nl (l : List Char) : (l ++ ['\n']).getLast? = some '\n' := by
  rw [List.getLast?_append_of_ne_nil _ (by simp)]
  rfl

theorem delimChars_len (i : Nat) : 16 ≤ (delimChars i).length := by
  unfold delimChars
  simp

theorem noRecMarkB_iff (l : List Char) : noRecMarkB l = true ↔ RFree l := by
  induction l with
  | nil =>
    constructor
    · intro _
      exact rfree_nil
    · intro _
      rfl
  | cons c t ih =>
    simp only [noRecMarkB, Bool.and_eq_true, Bool.not_eq_true', ih]
    constructor
    · rintro ⟨h1, h2⟩ s hs
      rcases List.suffix_cons_iff.mp hs with h3 | h3
      · subst h3
        exact h1
      · exact h2 s h3
    · intro h
      exact ⟨h (c :: t) (List.suffix_refl _), rfree_tail h⟩

theorem rfree_of_no_dash {l : List Char} (h : '-' ∉ l) : RFree l := by
  intro s hs
  cases s with
  | nil => rfl
  | cons c t =>
    cases hp : listPref recMark (c :: t) with
    | false => rfl
    | true =>
      exfalso
      have hc := head_dash_of_listPref_recMark hp
      subst hc
      exact h (hs.subset (List.mem_cons_self _ _))

/-! ## Claim C2: recovering the blocks of the detailed view -/

theorem blocksChars_cons_eq (i : Nat) (r : Record) (rs : List Record) :
    blocksChars i (r :: rs) =
      delimChars i ++ ((bodyChars r ++ ['\n']) ++ blocksChars (i + 1) rs) := by
  show recordBlockChars i r ++ blocksChars (i + 1) rs = _
  unfold recordBlockChars
  simp [List.append_assoc]

theorem splitBlocksGo_succ_of_scan {cs rest : List Char} (f : Nat)
    (h : scanToDelim cs = some rest) :
    splitBlocksGo (f + 1) cs = (takeBlock rest).1 :: splitBlocksGo f (takeBlock rest).2 := by
  simp only [splitBlocksGo]
  rw [h]

theorem splitBlocksGo_blocks (rs : List Record) : ∀ i fuel : Nat, rs ≠ [] →
    1 ≤ i → i + rs.length ≤ 11 →
    (∀ r ∈ rs, RFree (bodyChars r)) →
    (blocksChars i rs).length < fuel →
    splitBlocksGo fuel (blocksChars i rs) = rs.map (fun r => bodyChars r ++ ['\n']) := by
  induction rs with
  | nil =>
    intro i fuel h
    exact absurd rfl h
  | cons r rs' ih =>
    intro i fuel _ hi hlen hfree hfuel
    have hlen' : i + (rs'.length + 1) ≤ 11 := by simpa using hlen
    have hi10 : i ≤ 10 := by omega
    cases fuel with
    | zero => omega
    | succ f =>
      rw [blocksChars_cons_eq] at hfuel ⊢
      have hfreeA : RFree (bodyChars r ++ ['\n']) :=
        rfree_append_sep (hfree r (List.mem_cons_self _ _)) rfree_nil (by decide)
      have hnlA : EndsNl (bodyChars r ++ ['\n']) := Or.inr (getLast?_append_nl _)
      have hBcond : blocksChars (i + 1) rs' = [] ∨
          delimStartB (blocksChars (i + 1) rs') = true := by
        cases rs' with
        | nil => exact Or.inl rfl
        | cons r' rs'' =>
          right
          rw [blocksChars_cons_eq]
          refine delimStartB_delim (i + 1) ?_ _
          simp only [List.length_cons] at hlen'
          omega
      have hscan : scanToDelim (delimChars i ++
          ((bodyChars r ++ ['\n']) ++ blocksChars (i + 1) rs')) =
          some ((bodyChars r ++ ['\n']) ++ blocksChars (i + 1) rs') :=
        scan_of_delimAt (delimAt_delim i hi10 _)
      rw [splitBlocksGo_succ_of_scan f hscan, takeBlock_exact hfreeA hnlA hBcond]
      show (bodyChars r ++ ['\n']) :: splitBlocksGo f (blocksChars (i + 1) rs') = _
      rw [List.map_cons]
      cases rs' with
      | nil =>
        have hb : blocksChars (i + 1) ([] : List Record) = [] := rfl
        rw [hb, splitBlocksGo_nil]
        rfl
      | cons r' rs'' =>
        have hrest : splitBlocksGo f (blocksChars (i + 1) (r' :: rs'')) =
            (r' :: rs'').map (fun x => bodyChars x ++ ['\n']) := by
          apply ih (i + 1) f (by simp) (by omega)
            (by simp only [List.length_cons] at hlen' ⊢; omega)
            (fun x hx => hfree x (List.mem_cons_of_mem _ hx))
          have hd := delimChars_len i
          simp only [List.length_append] at hfuel
          omega
        rw [hrest]

theorem detailedView_data (rs : List Record) :
    (detailedView rs).data =
      ("Found " ++ natStr rs.length ++ " matching records:\n\n").data ++
        blocksChars 1 rs := rfl

theorem header_facts : ∀ n ≤ 10,
    ('-' ∉ ("Found " ++ natStr n ++ " matching records:\n\n").data ∧
      ("Found " ++ natStr n ++ " matching records:\n\n").data.getLast? = some '\n') := by
  decide

theorem splitBlocks_detailed (rs : List Record) (h1 : rs ≠ []) (h2 : rs.length ≤ 10)
    (hfree : ∀ r ∈ rs, RFree (bodyChars r)) :
    splitBlocks (detailedView rs).data = rs.map (fun r => bodyChars r ++ ['\n']) := by
  unfold splitBlocks
  rw [detailedView_data]
  have hh := header_facts rs.length h2
  rw [splitBlocksGo_skip _ _ (rfree_of_no_dash hh.1) (Or.inr hh.2)]
  apply splitBlocksGo_blocks rs 1 _ h1 (le_refl 1) (by omega) hfree
  rw [List.length_append]
  omega

/-! ## Whitespace-stripping toolkit -/

theorem dropWhile_ne_nil_of_mem {p : Char → Bool} {c : Char} :
    ∀ {l : List Char}, c ∈ l → p c = false → l.dropWhile p ≠ []
  | [], hc, _ => absurd hc (List.not_mem_nil c)
  | a :: t, hc, hp => by
    by_cases hpa : p a = true
    · have hct : c ∈ t := by
        rcases List.mem_cons.mp hc with rfl | h
        · rw [hp] at hpa
          exact absurd hpa (by simp)
        · exact h
      rw [List.dropWhile_cons, if_pos hpa]
      exact dropWhile_ne_nil_of_mem hct hp
    · rw [List.dropWhile_cons, if_neg hpa]
      simp

theorem mem_dropWhile_of_mem {p : Char → Bool} {c : Char} :
    ∀ {l : List Char}, c ∈ l → p c = false → c ∈ l.dropWhile p
  | [], hc, _ => absurd hc (List.not_mem_nil c)
  | a :: t, hc, hp => by
    by_cases hpa : p a = true
    · have hct : c ∈ t := by
        rcases List.mem_cons.mp hc with rfl | h
        · rw [hp] at hpa
          exact absurd hpa (by simp)
        · exact h
      rw [List.dropWhile_cons, if_pos hpa]
      exact mem_dropWhile_of_mem hct hp
    · rw [List.dropWhile_cons, if_neg hpa]
      exact hc

theorem dropWhile_idem {p : Char → Bool} : ∀ l : List Char,
    (l.dropWhile p).dropWhile p = l.dropWhile p
  | [] => rfl
  | a :: t => by
    by_cases h : p a = true
    · rw [List.dropWhile_cons, if_pos h]
      exact dropWhile_idem t
    · rw [List.dropWhile_cons, if_neg h, List.dropWhile_cons, if_neg h]

theorem dropLeadWs_append {a : List Char} (b : List Char) (h : dropLeadWs a ≠ []) :
    dropLeadWs (a ++ b) = dropLeadWs a ++ b := by
  unfold dropLeadWs at *
  rw [List.dropWhile_append]
  have he : (a.dropWhile isPyWs).isEmpty = false := by
    cases he2 : a.dropWhile isPyWs with
    | nil => exact absurd he2 h
    | cons x xs => rfl
  rw [he]
  simp

theorem dropLeadWs_append_nil {a : List Char} (b : List Char) (h : dropLeadWs a = []) :
    dropLeadWs (a ++ b) = dropLeadWs b := by
  unfold dropLeadWs at *
  rw [List.dropWhile_append, h]
  rfl

theorem dropTrailWs_append {a b : List Char} (h : dropTrailWs b ≠ []) :
    dropTrailWs (a ++ b) = a ++ dropTrailWs b := by
  unfold dropTrailWs at *
  rw [List.reverse_append, List.dropWhile_append]
  have he : (b.reverse.dropWhile isPyWs).isEmpty = false := by
    cases he2 : b.reverse.dropWhile isPyWs with
    | nil =>
      exact absurd (by rw [he2]; rfl) h
    | cons x xs => rfl
  rw [he]
  simp

theorem dropTrailWs_append_ws {a : List Char} {c : Char} (hc : isPyWs c = true) :
    dropTrailWs (a ++ [c]) = dropTrailWs a := by
  unfold dropTrailWs
  rw [List.reverse_append]
  simp [List.dropWhile_cons, hc]

theorem dropTrailWs_ne_nil {l : List Char} {c : Char} (hc : c ∈ l) (hp : isPyWs c = false) :
    dropTrailWs l ≠ [] := by
  unfold dropTrailWs
  intro h
  have h2 : l.reverse.dropWhile isPyWs = [] := by
    have h3 := congrArg List.reverse h
    simpa using h3
  exact dropWhile_ne_nil_of_mem (by simpa using hc) hp h2

theorem dropLeadWs_ne_nil {l : List Char} {c : Char} (hc : c ∈ l) (hp : isPyWs c = false) :
    dropLeadWs l ≠ [] := dropWhile_ne_nil_of_mem hc hp

theorem dropTrailWs_cons {c : Char} {l : List Char} :
    dropTrailWs (c :: l) =
      if dropTrailWs l = [] then (if isPyWs c then [] else [c]) else c :: dropTrailWs l := by
  by_cases h : dropTrailWs l = []
  · rw [if_pos h]
    show dropTrailWs ([c] ++ l) = _
    unfold dropTrailWs at *
    rw [List.reverse_append, List.dropWhile_append]
    have he : (l.reverse.dropWhile isPyWs).isEmpty = true := by
      have h2 : l.reverse.dropWhile isPyWs = [] := by
        have h3 := congrArg List.reverse h
        simpa using h3
      rw [h2]
      rfl
    rw [he]
    by_cases hc : isPyWs c = true
    · simp [List.dropWhile_cons, hc]
    · simp [List.dropWhile_cons, hc]
  · rw [if_neg h]
    show dropTrailWs ([c] ++ l) = _
    rw [dropTrailWs_append h]
    rfl

theorem dropTrailWs_cons_nonws {c : Char} {l : List Char} (hc : isPyWs c = false) :
    dropTrailWs (c :: l) = c :: dropTrailWs l := by
  rw [dropTrailWs_cons]
  by_cases h : dropTrailWs l = []
  · rw [if_pos h, if_neg (by rw [hc]; exact Bool.noConfusion), h]
  · rw [if_neg h]

theorem dropTrailWs_idem (l : List Char) : dropTrailWs (dropTrailWs l) = dropTrailWs l := by
  unfold dropTrailWs
  rw [List.reverse_reverse, dropWhile_idem]

theorem pyStripL_dropLead (l : List Char) : pyStripL (dropLeadWs l) = pyStripL l := by
  unfold pyStripL dropLeadWs
  rw [dropWhile_idem]

theorem head_not_ws_dropLead : ∀ l : List Char,
    dropLeadWs l = [] ∨ ∃ c t, dropLeadWs l = c :: t ∧ isPyWs c = false
  | [] => Or.inl rfl
  | a :: t => by
    by_cases h : isPyWs a = true
    · have ha : dropLeadWs (a :: t) = dropLeadWs t := by
        unfold dropLeadWs
        rw [List.dropWhile_cons, if_pos h]
      rw [ha]
      exact head_not_ws_dropLead t
    · right
      refine ⟨a, t, ?_, ?_⟩
      · unfold dropLeadWs
        rw [List.dropWhile_cons, if_neg h]
      · cases h2 : isPyWs a with
        | false => rfl
        | true => exact absurd h2 h

theorem dropLead_dropTrail (l : List Char) :
    dropLeadWs (dropTrailWs l) = dropTrailWs (dropLeadWs l) := by
  induction l with
  | nil => rfl
  | cons c t ih =>
    by_cases hc : isPyWs c = true
    · have hl : dropLeadWs (c :: t) = dropLeadWs t := by
        unfold dropLeadWs
        rw [List.dropWhile_cons, if_pos hc]
      rw [hl, ← ih]
      by_cases hdt : dropTrailWs t = []
      · rw [dropTrailWs_cons, if_pos hdt, if_pos hc, hdt]
      · rw [dropTrailWs_cons, if_neg hdt]
        unfold dropLeadWs
        rw [List.dropWhile_cons, if_pos hc]
    · have hl : dropLeadWs (c :: t) = c :: t := by
        unfold dropLeadWs
        rw [List.dropWhile_cons, if_neg hc]
      rw [hl, dropTrailWs_cons]
      by_cases hdt : dropTrailWs t = []
      · rw [if_pos hdt, if_neg hc]
        unfold dropLeadWs
        rw [List.dropWhile_cons, if_neg hc]
      · rw [if_neg hdt]
        unfold dropLeadWs
        rw [List.dropWhile_cons, if_neg hc]

theorem pyStripL_dropTrail (l : List Char) : pyStripL (dropTrailWs l) = pyStripL l := by
  unfold pyStripL
  rw [← dropLead_dropTrail, dropLead_dropTrail (dropTrailWs l)]
  rw [show dropTrailWs (dropLeadWs (dropTrailWs l)) =
    dropLeadWs (dropTrailWs (dropTrailWs l)) from (dropLead_dropTrail _).symm]
  rw [dropTrailWs_idem, dropLead_dropTrail]

theorem listPref_space_pyStripL (l : List Char) : listPref [' '] (pyStripL l) = false := by
  have hcomm : pyStripL l = dropLeadWs (dropTrailWs l) := (dropLead_dropTrail l).symm
  rw [hcomm]
  rcases head_not_ws_dropLead (dropTrailWs l) with h | ⟨c, t, he, hc⟩
  · rw [h]
    rfl
  · rw [he]
    have hcs : ¬(' ' = c) := by
      intro h2
      rw [← h2] at hc
      exact absurd hc (by decide)
    simp [listPref, hcs]

theorem pyStripL_two_spaces (t : List Char) : pyStripL (' ' :: ' ' :: t) = pyStripL t := by
  show dropTrailWs (dropLeadWs (' ' :: ' ' :: t)) = _
  have h : dropLeadWs (' ' :: ' ' :: t) = dropLeadWs t := by
    unfold dropLeadWs
    rw [List.dropWhile_cons, if_pos (by decide), List.dropWhile_cons, if_pos (by decide)]
  rw [h]
  rfl

theorem mem_of_mem_dropTrailWs {c : Char} {l : List Char} (h : c ∈ dropTrailWs l) :
    c ∈ l := by
  unfold dropTrailWs at h
  rw [List.mem_reverse] at h
  have h2 : c ∈ l.reverse := (List.dropWhile_sublist _).subset h
  exact List.mem_reverse.mp h2

theorem mem_of_mem_dropLeadWs {c : Char} {l : List Char} (h : c ∈ dropLeadWs l) :
    c ∈ l :=
  (List.dropWhile_sublist _).subset h

/-! ## Key-value recovery from a colon line -/

theorem takeUntil_append {sep : Char} :
    ∀ {t : List Char}, sep ∉ t → ∀ rest, takeUntil sep (t ++ sep :: rest) = t
  | [], _, rest => by simp [takeUntil]
  | c :: t', h, rest => by
    have hc : ¬(c = sep) := fun he => h (he ▸ List.mem_cons_self c t')
    show takeUntil sep (c :: (t' ++ sep :: rest)) = c :: t'
    simp only [takeUntil]
    rw [if_neg hc, takeUntil_append (fun hm => h (List.mem_cons_of_mem _ hm)) rest]

theorem dropPast_append {sep : Char} :
    ∀ {t : List Char}, sep ∉ t → ∀ rest, dropPast sep (t ++ sep :: rest) = rest
  | [], _, rest => by simp [dropPast]
  | c :: t', h, rest => by
    have hc : ¬(c = sep) := fun he => h (he ▸ List.mem_cons_self c t')
    show dropPast sep (c :: (t' ++ sep :: rest)) = rest
    simp only [dropPast]
    rw [if_neg hc, dropPast_append (fun hm => h (List.mem_cons_of_mem _ hm)) rest]

theorem contains_colon (t rest : List Char) : (t ++ ':' :: rest).contains ':' = true := by
  simp

theorem lineKV_colon {t rest : List Char} (ht : ':' ∉ t) :
    lineKV (t ++ ':' :: rest) = some (⟨pyStripL t⟩, ⟨pyStripL rest⟩) := by
  unfold lineKV
  rw [if_pos]
  · rw [takeUntil_append ht rest, dropPast_append ht rest]
  · rw [contains_colon, listPref_space_pyStripL]
    rfl

theorem lineKV_of_variant {x t rest : List Char} (ht : ':' ∉ t)
    (hx : x = t ++ ':' :: rest ∨ x = dropLeadWs (t ++ ':' :: rest) ∨
      x = dropTrailWs (t ++ ':' :: rest) ∨ x = dropTrailWs (dropLeadWs (t ++ ':' :: rest))) :
    lineKV x = some (⟨pyStripL t⟩, ⟨pyStripL rest⟩) := by
  have hdt : dropTrailWs (':' :: rest) = ':' :: dropTrailWs rest :=
    dropTrailWs_cons_nonws (by decide)
  rcases hx with rfl | rfl | rfl | rfl
  · exact lineKV_colon ht
  · by_cases hd : dropLeadWs t = []
    · rw [dropLeadWs_append_nil _ hd]
      have hcr : dropLeadWs (':' :: rest) = [] ++ ':' :: rest := by
        unfold dropLeadWs
        rw [List.dropWhile_cons, if_neg (by decide)]
        rfl
      rw [hcr, lineKV_colon (List.not_mem_nil ':')]
      have hst : pyStripL t = pyStripL ([] : List Char) := by
        unfold pyStripL
        rw [hd]
        rfl
      rw [hst]
    · rw [dropLeadWs_append _ hd]
      have ht2 : ':' ∉ dropLeadWs t := fun hm => ht (mem_of_mem_dropLeadWs hm)
      rw [lineKV_colon ht2, pyStripL_dropLead]
  · rw [dropTrailWs_append (by rw [hdt]; exact fun hx2 => List.noConfusion hx2), hdt,
      lineKV_colon ht, pyStripL_dropTrail]
  · by_cases hd : dropLeadWs t = []
    · rw [dropLeadWs_append_nil _ hd]
      have hcr : dropLeadWs (':' :: rest) = ':' :: rest := by
        unfold dropLeadWs
        rw [List.dropWhile_cons, if_neg (by decide)]
      rw [hcr, hdt, show (':' : Char) :: dropTrailWs rest = [] ++ ':' :: dropTrailWs rest from rfl,
        lineKV_colon (List.not_mem_nil ':'), pyStripL_dropTrail]
      have hst : pyStripL t = pyStripL ([] : List Char) := by
        unfold pyStripL
        rw [hd]
        rfl
      rw [hst]
    · rw [dropLeadWs_append _ hd,
        dropTrailWs_append (by rw [hdt]; exact fun hx2 => List.noConfusion hx2), hdt]
      have ht2 : ':' ∉ dropLeadWs t := fun hm => ht (mem_of_mem_dropLeadWs hm)
      rw [lineKV_colon ht2, pyStripL_dropLead, pyStripL_dropTrail]

/-! ## Stripping and resplitting a rendered block -/

theorem joinNl_cons (l : List Char) (ls : List (List Char)) :
    joinNl (l :: ls) = l ++ '\n' :: joinNl ls := by
  show (l ++ ['\n']) ++ joinNl ls = _
  simp

theorem dropTrailWs_joinNl : ∀ ls : List (List Char), ls ≠ [] →
    (∀ l ∈ ls, ∃ c ∈ l, isPyWs c = false) →
    dropTrailWs (joinNl ls ++ ['\n']) = joinAlmost ls ∧ joinAlmost ls ≠ []
  | [], h, _ => absurd rfl h
  | [l], _, hws => by
    obtain ⟨c, hc, hcw⟩ := hws l (List.mem_cons_self _ _)
    constructor
    · have h1 : joinNl [l] ++ ['\n'] = (l ++ ['\n']) ++ ['\n'] := by
        show ((l ++ ['\n']) ++ []) ++ ['\n'] = _
        simp
      rw [h1, dropTrailWs_append_ws (by decide), dropTrailWs_append_ws (by decide)]
      rfl
    · show dropTrailWs l ≠ []
      exact dropTrailWs_ne_nil hc hcw
  | l :: m :: rest, _, hws => by
    have ih := dropTrailWs_joinNl (m :: rest) (by simp)
      (fun x hx => hws x (List.mem_cons_of_mem _ hx))
    have h1 : joinNl (l :: m :: rest) ++ ['\n'] =
        l ++ ('\n' :: (joinNl (m :: rest) ++ ['\n'])) := by
      rw [joinNl_cons]
      simp
    have h2 : dropTrailWs ('\n' :: (joinNl (m :: rest) ++ ['\n'])) =
        '\n' :: joinAlmost (m :: rest) := by
      rw [dropTrailWs_cons, ih.1, if_neg ih.2]
    constructor
    · rw [h1, dropTrailWs_append (by rw [h2]; exact fun hx => List.noConfusion hx), h2]
      rfl
    · rw [show joinAlmost (l :: m :: rest) = l ++ '\n' :: joinAlmost (m :: rest) from rfl]
      simp

theorem dropLeadWs_joinNl (l : List Char) (ls : List (List Char)) (h : dropLeadWs l ≠ []) :
    dropLeadWs (joinNl (l :: ls) ++ ['\n']) = joinNl (dropLeadWs l :: ls) ++ ['\n'] := by
  rw [joinNl_cons, joinNl_cons]
  have h1 : (l ++ ('\n' :: joinNl ls)) ++ ['\n'] = l ++ (('\n' :: joinNl ls) ++ ['\n']) := by
    simp
  rw [h1, dropLeadWs_append _ h]
  simp

theorem splitNl_no_nl : ∀ {a : List Char}, '\n' ∉ a → splitNl a = [a]
  | [], _ => rfl
  | c :: t, h => by
    have hc : ¬(c = '\n') := fun he => h (he ▸ List.mem_cons_self _ _)
    show splitNl (c :: t) = [c :: t]
    simp only [splitNl]
    rw [if_neg hc, splitNl_no_nl (fun hm => h (List.mem_cons_of_mem _ hm))]

theorem splitNl_append {a : List Char} (h : '\n' ∉ a) (b : List Char) :
    splitNl (a ++ '\n' :: b) = a :: splitNl b := by
  induction a with
  | nil =>
    show splitNl ('\n' :: b) = [] :: splitNl b
    simp only [splitNl]
    simp
  | cons c t ih =>
    have hc : ¬(c = '\n') := fun he => h (he ▸ List.mem_cons_self _ _)
    have iht := ih (fun hm => h (List.mem_cons_of_mem _ hm))
    show splitNl (c :: (t ++ '\n' :: b)) = (c :: t) :: splitNl b
    simp only [splitNl]
    rw [if_neg hc, iht]

theorem splitNl_joinAlmost : ∀ ls : List (List Char), ls ≠ [] →
    (∀ l ∈ ls, '\n' ∉ l) →
    splitNl (joinAlmost ls) = modLast dropTrailWs ls
  | [], h, _ => absurd rfl h
  | [l], _, h => by
    show splitNl (dropTrailWs l) = [dropTrailWs l]
    apply splitNl_no_nl
    intro hm
    exact h l (List.mem_cons_self _ _) (mem_of_mem_dropTrailWs hm)
  | l :: m :: rest, _, h => by
    show splitNl (l ++ '\n' :: joinAlmost (m :: rest)) = l :: modLast dropTrailWs (m :: rest)
    rw [splitNl_append (h l (List.mem_cons_self _ _)),
      splitNl_joinAlmost (m :: rest) (by simp) (fun x hx => h x (List.mem_cons_of_mem _ hx))]

theorem splitNl_strip_body (ls : List (List Char)) (hne : ls ≠ [])
    (hnl : ∀ l ∈ ls, '\n' ∉ l)
    (hws : ∀ l ∈ ls, ∃ c ∈ l, isPyWs c = false) :
    splitNl (pyStripL (joinNl ls ++ ['\n'])) =
      modLast dropTrailWs (modHead dropLeadWs ls) := by
  cases ls with
  | nil => exact absurd rfl hne
  | cons l ls' =>
    show splitNl (dropTrailWs (dropLeadWs (joinNl (l :: ls') ++ ['\n']))) = _
    by_cases hdl : dropLeadWs l = []
    · obtain ⟨c, hc, hcw⟩ := hws l (List.mem_cons_self _ _)
      exact absurd hdl (dropLeadWs_ne_nil hc hcw)
    · rw [dropLeadWs_joinNl l ls' hdl]
      have hws2 : ∀ x ∈ (dropLeadWs l :: ls'), ∃ c ∈ x, isPyWs c = false := by
        intro x hx
        rcases List.mem_cons.mp hx with rfl | hx2
        · rcases head_not_ws_dropLead l with h3 | ⟨c, t, he, hcw⟩
          · exact absurd h3 hdl
          · exact ⟨c, by rw [he]; exact List.mem_cons_self _ _, hcw⟩
        · exact hws x (List.mem_cons_of_mem _ hx2)
      rw [(dropTrailWs_joinNl (dropLeadWs l :: ls') (by simp) hws2).1]
      apply splitNl_joinAlmost _ (by simp)
      intro x hx
      rcases List.mem_cons.mp hx with rfl | hx2
      · intro hm
        exact hnl l (List.mem_cons_self _ _) (mem_of_mem_dropLeadWs hm)
      · exact hnl x (List.mem_cons_of_mem _ hx2)

theorem mem_modLast_of_mem {g : List Char → List Char} :
    ∀ {ls : List (List Char)} {l : List Char}, l ∈ ls →
      ∃ x ∈ modLast g ls, x = l ∨ x = g l
  | [], l, h => absurd h (List.not_mem_nil l)
  | [a], l, h => by
    rcases List.mem_cons.mp h with rfl | h2
    · exact ⟨g l, List.mem_cons_self _ _, Or.inr rfl⟩
    · exact absurd h2 (List.not_mem_nil l)
  | a :: b :: rest, l, h => by
    rcases List.mem_cons.mp h with rfl | h2
    · exact ⟨l, List.mem_cons_self _ _, Or.inl rfl⟩
    · obtain ⟨x, hx, hor⟩ := @mem_modLast_of_mem g (b :: rest) l h2
      exact ⟨x, List.mem_cons_of_mem _ hx, hor⟩

theorem mem_modHL_of_mem {f g : List Char → List Char} :
    ∀ {ls : List (List Char)} {l : List Char}, l ∈ ls →
      ∃ x ∈ modLast g (modHead f ls),
        x = l ∨ x = f l ∨ x = g l ∨ x = g (f l)
  | [], l, h => absurd h (List.not_mem_nil l)
  | [a], l, h => by
    rcases List.mem_cons.mp h with rfl | h2
    · exact ⟨g (f l), List.mem_cons_self _ _, Or.inr (Or.inr (Or.inr rfl))⟩
    · exact absurd h2 (List.not_mem_nil l)
  | a :: b :: rest, l, h => by
    rcases List.mem_cons.mp h with rfl | h2
    · exact ⟨f l, List.mem_cons_self _ _, Or.inr (Or.inl rfl)⟩
    · obtain ⟨x, hx, hor⟩ := @mem_modLast_of_mem g (b :: rest) l h2
      refine ⟨x, List.mem_cons_of_mem _ hx, ?_⟩
      rcases hor with h3 | h3
      · exact Or.inl h3
      · exact Or.inr (Or.inr (Or.inl h3))

/-! ## Presence of a key in the folded row -/

theorem lookupA_upsert_isSome {α : Type} (m : List (String × α)) (k k' : String) (v : α)
    (h : (lookupA m k).isSome = true) : (lookupA (upsert m k' v) k).isSome = true := by
  by_cases he : k' = k
  · subst he
    rw [lookupA_upsert_self]
    rfl
  · rw [lookupA_upsert_ne m k' k v (fun hx => he hx.symm)]
    exact h

theorem rowOfLines_isSome (key : String) (lines : List (List Char))
    (h : ∃ line ∈ lines, ∃ v, lineKV line = some (key, v)) :
    (lookupA (rowOfLines lines) key).isSome = true := by
  have aux : ∀ (ls : List (List Char)) (acc : Row),
      ((lookupA acc key).isSome = true ∨ ∃ line ∈ ls, ∃ v, lineKV line = some (key, v)) →
      (lookupA (ls.foldl (fun acc line =>
        match lineKV line with
        | some (k, v) => upsert acc k v
        | none => acc) acc) key).isSome = true := by
    intro ls
    induction ls with
    | nil =>
      intro acc hacc
      rcases hacc with h1 | h1
      · simpa using h1
      · obtain ⟨line, hl, _⟩ := h1
        exact absurd hl (List.not_mem_nil _)
    | cons a t ih =>
      intro acc hacc
      rw [List.foldl_cons]
      apply ih
      cases hkv : lineKV a with
      | none =>
        rcases hacc with h1 | h1
        · exact Or.inl h1
        · obtain ⟨line, hl, v, hv⟩ := h1
          rcases List.mem_cons.mp hl with rfl | h2
          · rw [hkv] at hv
            exact absurd hv (by simp)
          · exact Or.inr ⟨line, h2, v, hv⟩
      | some p =>
        obtain ⟨k1, v1⟩ := p
        rcases hacc with h1 | h1
        · exact Or.inl (lookupA_upsert_isSome acc key k1 v1 h1)
        · obtain ⟨line, hl, v, hv⟩ := h1
          rcases List.mem_cons.mp hl with rfl | h2
          · rw [hkv] at hv
            have hk : k1 = key := by
              injection hv with h3
              exact congrArg Prod.fst h3
            left
            show (lookupA (upsert acc k1 v1) key).isSome = true
            rw [hk, lookupA_upsert_self]
            rfl
          · exact Or.inr ⟨line, h2, v, hv⟩
  exact aux lines [] (Or.inr h)

theorem ne_nil_of_lookupA_isSome {α : Type} {m : List (String × α)} {k : String}
    (h : (lookupA m k).isSome = true) : m ≠ [] := by
  intro he
  subst he
  simp [lookupA] at h

theorem filterMap_eq_map_of_all {α β : Type} (f : α → Option β) (g : α → β) :
    ∀ l : List α, (∀ x ∈ l, f x = some (g x)) → l.filterMap f = l.map g
  | [], _ => rfl
  | a :: t, h => by
    rw [List.filterMap_cons, h a (List.mem_cons_self _ _), List.map_cons,
      filterMap_eq_map_of_all f g t (fun x hx => h x (List.mem_cons_of_mem _ hx))]

/-! ## The emitted lines of a clean record -/

theorem emittedLines_cons (p : String × FVal) (r : Record) :
    emittedLines (p :: r) = fieldLinesOf p ++ emittedLines r := rfl

theorem mem_emittedLines : ∀ {r : Record} {l : List Char},
    l ∈ emittedLines r → ∃ p ∈ r, l ∈ fieldLinesOf p
  | [], l, h => absurd h (List.not_mem_nil l)
  | p :: r', l, h => by
    rw [emittedLines_cons] at h
    rcases List.mem_append.mp h with h1 | h1
    · exact ⟨p, List.mem_cons_self _ _, h1⟩
    · obtain ⟨q, hq, hl⟩ := mem_emittedLines h1
      exact ⟨q, List.mem_cons_of_mem _ hq, hl⟩

theorem emittedLines_of_mem : ∀ {r : Record} {p : String × FVal}, p ∈ r →
    ∀ {l : List Char}, l ∈ fieldLinesOf p → l ∈ emittedLines r
  | [], p, hp, _, _ => absurd hp (List.not_mem_nil p)
  | q :: r', p, hp, l, hl => by
    rw [emittedLines_cons]
    rcases List.mem_cons.mp hp with rfl | h2
    · exact List.mem_append.mpr (Or.inl hl)
    · exact List.mem_append.mpr (Or.inr (emittedLines_of_mem h2 hl))

theorem cleanPiece_props {t : List Char} (h : cleanPiece t = true) :
    ':' ∉ t ∧ '\n' ∉ t ∧ RFree t := by
  unfold cleanPiece at h
  rw [Bool.and_eq_true] at h
  refine ⟨?_, ?_, (noRecMarkB_iff t).mp h.2⟩
  · intro hm
    have h2 := List.all_eq_true.mp h.1 _ hm
    simp at h2
  · intro hm
    have h2 := List.all_eq_true.mp h.1 _ hm
    simp at h2

theorem cleanValPiece_props {t : List Char} (h : cleanValPiece t = true) :
    '\n' ∉ t ∧ RFree t := by
  unfold cleanValPiece at h
  rw [Bool.and_eq_true] at h
  refine ⟨?_, (noRecMarkB_iff t).mp h.2⟩
  intro hm
  have h2 := List.all_eq_true.mp h.1 _ hm
  simp at h2

theorem sepVal_data (b : BVal) :
    (": " ++ renderB b).data = ':' :: ' ' :: (renderB b).data := rfl

theorem scalar_line_eq (k : String) (b : BVal) :
    (titleStr k).data ++ (": " ++ renderB b).data =
      (titleStr k).data ++ ':' :: ' ' :: (renderB b).data := by
  rw [sepVal_data]

theorem sub_line_eq (q : String × BVal) :
    "  ".data ++ (titleStr q.1).data ++ (": " ++ renderB q.2).data =
      (' ' :: ' ' :: (titleStr q.1).data) ++ ':' :: ' ' :: (renderB q.2).data := by
  rw [sepVal_data]
  rfl

theorem fieldLinesOf_props {p : String × FVal} (hp : p.1 = "_id" ∨ cleanField p = true) :
    ∀ l ∈ fieldLinesOf p, '\n' ∉ l ∧ RFree l ∧ ∃ c ∈ l, isPyWs c = false := by
  obtain ⟨k, fv⟩ := p
  by_cases hid : k = "_id"
  · intro l hl
    rw [show fieldLinesOf (k, fv) = [] from by simp [fieldLinesOf, hid]] at hl
    exact absurd hl (List.not_mem_nil l)
  · have hcf : cleanField (k, fv) = true := by
      rcases hp with h1 | h1
      · exact absurd h1 hid
      · exact h1
    cases fv with
    | base b =>
      intro l hl
      have hfl : fieldLinesOf (k, FVal.base b) =
          [(titleStr k).data ++ (": " ++ renderB b).data] := by
        simp [fieldLinesOf, hid]
      rw [hfl] at hl
      have hl2 := List.mem_singleton.mp hl
      rw [scalar_line_eq] at hl2
      subst hl2
      simp only [cleanField] at hcf
      rw [Bool.and_eq_true] at hcf
      obtain ⟨htc, htn, htf⟩ := cleanPiece_props hcf.1
      obtain ⟨hvn, hvf⟩ := cleanValPiece_props hcf.2
      refine ⟨?_, ?_, ⟨':', by simp, by decide⟩⟩
      · intro hm
        rcases List.mem_append.mp hm with h3 | h3
        · exact htn h3
        · rcases List.mem_cons.mp h3 with h4 | h4
          · exact absurd h4 (by decide)
          · rcases List.mem_cons.mp h4 with h5 | h5
            · exact absurd h5 (by decide)
            · exact hvn h5
      · exact rfree_append_sep htf (rfree_cons (by decide) hvf) (by decide)
    | nested lsub =>
      intro l hl
      have hfl : fieldLinesOf (k, FVal.nested lsub) =
          ((titleStr k).data ++ [':']) :: lsub.map (fun q =>
            "  ".data ++ (titleStr q.1).data ++ (": " ++ renderB q.2).data) := by
        simp [fieldLinesOf, hid]
      rw [hfl] at hl
      simp only [cleanField] at hcf
      rw [Bool.and_eq_true] at hcf
      obtain ⟨htc, htn, htf⟩ := cleanPiece_props hcf.1
      rcases List.mem_cons.mp hl with rfl | h2
      · refine ⟨?_, ?_, ⟨':', by simp, by decide⟩⟩
        · intro hm
          rcases List.mem_append.mp hm with h3 | h3
          · exact htn h3
          · simp at h3
        · exact rfree_append_sep htf rfree_nil (by decide)
      · obtain ⟨q, hq, hql⟩ := List.mem_map.mp h2
        have h3 := List.all_eq_true.mp hcf.2 q hq
        simp only [Bool.and_eq_true] at h3
        obtain ⟨hqtc, hqtn, hqtf⟩ := cleanPiece_props h3.1
        obtain ⟨hqvn, hqvf⟩ := cleanValPiece_props h3.2
        have hle : l = (' ' :: ' ' :: (titleStr q.1).data) ++ ':' :: ' ' :: (renderB q.2).data := by
          rw [← hql, sub_line_eq]
        subst hle
        refine ⟨?_, ?_, ⟨':', by simp, by decide⟩⟩
        · intro hm
          rcases List.mem_append.mp hm with h4 | h4
          · rcases List.mem_cons.mp h4 with h5 | h5
            · exact absurd h5 (by decide)
            · rcases List.mem_cons.mp h5 with h6 | h6
              · exact absurd h6 (by decide)
              · exact hqtn h6
          · rcases List.mem_cons.mp h4 with h5 | h5
            · exact absurd h5 (by decide)
            · rcases List.mem_cons.mp h5 with h6 | h6
              · exact absurd h6 (by decide)
              · exact hqvn h6
        · exact rfree_append_sep (rfree_cons (by decide) (rfree_cons (by decide) hqtf))
            (rfree_cons (by decide) hqvf) (by decide)

theorem cleanField_of_mem {r : Record} {p : String × FVal} (hc : CleanRecord r = true)
    (hp : p ∈ r) : p.1 = "_id" ∨ cleanField p = true := by
  unfold CleanRecord at hc
  rw [Bool.and_eq_true] at hc
  have h2 := List.all_eq_true.mp hc.2 p hp
  rw [Bool.or_eq_true] at h2
  rcases h2 with h3 | h3
  · exact Or.inl (of_decide_eq_true h3)
  · exact Or.inr h3

theorem exists_non_id_field {r : Record} (hc : CleanRecord r = true) :
    ∃ p ∈ r, p.1 ≠ "_id" := by
  unfold CleanRecord at hc
  rw [Bool.and_eq_true] at hc
  obtain ⟨p, hp, hb⟩ := List.any_eq_true.mp hc.1
  refine ⟨p, hp, ?_⟩
  intro he
  rw [he] at hb
  simp at hb

theorem emittedLines_props {r : Record} (hc : CleanRecord r = true) :
    ∀ l ∈ emittedLines r, '\n' ∉ l ∧ RFree l ∧ ∃ c ∈ l, isPyWs c = false := by
  intro l hl
  obtain ⟨p, hp, hlp⟩ := mem_emittedLines hl
  exact fieldLinesOf_props (cleanField_of_mem hc hp) l hlp

theorem rfree_joinNl : ∀ {ls : List (List Char)}, (∀ l ∈ ls, RFree l) → RFree (joinNl ls)
  | [], _ => rfree_nil
  | l :: t, h => by
    rw [joinNl_cons]
    exact rfree_append_sep (h l (List.mem_cons_self _ _))
      (rfree_joinNl (fun x hx => h x (List.mem_cons_of_mem _ hx))) (by decide)

theorem rfree_bodyChars {r : Record} (hc : CleanRecord r = true) : RFree (bodyChars r) :=
  rfree_joinNl (fun l hl => (emittedLines_props hc l hl).2.1)

theorem line_of_scalar_field {r : Record} {k : String} {b : BVal}
    (hmem : (k, FVal.base b) ∈ r) (hid : ¬(k = "_id")) :
    ((titleStr k).data ++ ':' :: ' ' :: (renderB b).data) ∈ emittedLines r := by
  apply emittedLines_of_mem hmem
  have hfl : fieldLinesOf (k, FVal.base b) =
      [(titleStr k).data ++ (": " ++ renderB b).data] := by
    simp [fieldLinesOf, hid]
  rw [hfl, scalar_line_eq]
  exact List.mem_singleton.mpr rfl

theorem header_line_of_nested_field {r : Record} {k : String} {lsub : List (String × BVal)}
    (hmem : (k, FVal.nested lsub) ∈ r) (hid : ¬(k = "_id")) :
    ((titleStr k).data ++ ':' :: []) ∈ emittedLines r := by
  apply emittedLines_of_mem hmem
  have hfl : fieldLinesOf (k, FVal.nested lsub) =
      ((titleStr k).data ++ [':']) :: lsub.map (fun q =>
        "  ".data ++ (titleStr q.1).data ++ (": " ++ renderB q.2).data) := by
    simp [fieldLinesOf, hid]
  rw [hfl]
  exact List.mem_cons_self _ _

theorem sub_line_of_nested_field {r : Record} {k : String} {lsub : List (String × BVal)}
    {q : String × BVal} (hmem : (k, FVal.nested lsub) ∈ r) (hid : ¬(k = "_id"))
    (hq : q ∈ lsub) :
    ((' ' :: ' ' :: (titleStr q.1).data) ++ ':' :: ' ' :: (renderB q.2).data) ∈
      emittedLines r := by
  apply emittedLines_of_mem hmem
  have hfl : fieldLinesOf (k, FVal.nested lsub) =
      ((titleStr k).data ++ [':']) :: lsub.map (fun q =>
        "  ".data ++ (titleStr q.1).data ++ (": " ++ renderB q.2).data) := by
    simp [fieldLinesOf, hid]
  rw [hfl]
  apply List.mem_cons_of_mem
  rw [← sub_line_eq q]
  exact List.mem_map.mpr ⟨q, hq, rfl⟩

theorem emittedLines_ne_nil {r : Record} (hc : CleanRecord r = true) :
    emittedLines r ≠ [] := by
  obtain ⟨p, hp, hid⟩ := exists_non_id_field hc
  obtain ⟨k, fv⟩ := p
  cases fv with
  | base b => exact List.ne_nil_of_mem (line_of_scalar_field hp hid)
  | nested lsub => exact List.ne_nil_of_mem (header_line_of_nested_field hp hid)

theorem rowOfRecord_eq {r : Record} (hc : CleanRecord r = true) :
    rowOfRecord r = rowOfLines (modLast dropTrailWs (modHead dropLeadWs (emittedLines r))) := by
  unfold rowOfRecord rowOfBlock bodyChars
  rw [splitNl_strip_body (emittedLines r) (emittedLines_ne_nil hc)
    (fun l hl => (emittedLines_props hc l hl).1)
    (fun l hl => (emittedLines_props hc l hl).2.2)]

theorem key_present_of_line {r : Record} (hc : CleanRecord r = true)
    {t rest : List Char} (ht : ':' ∉ t)
    (hline : (t ++ ':' :: rest) ∈ emittedLines r) :
    (lookupA (rowOfRecord r) ⟨pyStripL t⟩).isSome = true := by
  rw [rowOfRecord_eq hc]
  obtain ⟨x, hx, hor⟩ := @mem_modHL_of_mem dropLeadWs dropTrailWs _ _ hline
  exact rowOfLines_isSome _ _ ⟨x, hx, ⟨pyStripL rest⟩, lineKV_of_variant ht hor⟩

theorem rowOfRecord_ne_nil {r : Record} (hc : CleanRecord r = true) :
    (rowOfRecord r).isEmpty = false := by
  obtain ⟨p, hp, hid⟩ := exists_non_id_field hc
  obtain ⟨k, fv⟩ := p
  have hcf : cleanField (k, fv) = true := by
    rcases cleanField_of_mem hc hp with h1 | h1
    · exact absurd h1 hid
    · exact h1
  have hsome : ∃ key, (lookupA (rowOfRecord r) key).isSome = true := by
    cases fv with
    | base b =>
      simp only [cleanField] at hcf
      rw [Bool.and_eq_true] at hcf
      exact ⟨_, key_present_of_line hc (cleanPiece_props hcf.1).1
        (line_of_scalar_field hp hid)⟩
    | nested lsub =>
      simp only [cleanField] at hcf
      rw [Bool.and_eq_true] at hcf
      exact ⟨_, key_present_of_line hc (cleanPiece_props hcf.1).1
        (header_line_of_nested_field hp hid)⟩
  obtain ⟨key, hkey⟩ := hsome
  have hnn := ne_nil_of_lookupA_isSome hkey
  cases hrr : rowOfRecord r with
  | nil => exact absurd hrr hnn
  | cons a t => rfl

/-- **C2** (counterexample to the claim as stated).  One record holding
only the internal identifier is a non-empty list of at most ten records;
the renderer produces the detailed view for it, but its block carries no
`key: value` line, so the extractor's block strategy recovers zero rows
instead of one. -/
theorem c2_counterexample :
    ([[("_id", FVal.base (BVal.s "65a1"))]] : List Record) ≠ [] ∧
    ([[("_id", FVal.base (BVal.s "65a1"))]] : List Record).length ≤ 10 ∧
    formatResults [[("_id", FVal.base (BVal.s "65a1"))]] "q" =
      Except.ok (detailedView [[("_id", FVal.base (BVal.s "65a1"))]]) ∧
    (extractTableData (detailedView [[("_id", FVal.base (BVal.s "65a1"))]])).length ≠
      ([[("_id", FVal.base (BVal.s "65a1"))]] : List Record).length := by
  decide

/-- **C2** (amended).  For every non-empty list of at most ten clean
records — each record has a field besides the internal identifier, every
rendered key is free of colons, newlines and the record marker, every
rendered value is a single marker-free line — and whose detailed view
does not trip the SQL-tuple precondition, the renderer returns the
detailed view, the table extractor recovers exactly one row per record,
and the row of each record contains the stripped titled key of every
emitted field, including the subfields of one-level-nested objects. -/
theorem c2_roundtrip (rs : List Record) (q : String)
    (h1 : rs ≠ []) (h2 : rs.length ≤ 10)
    (hcl : ∀ r ∈ rs, CleanRecord r = true)
    (hp : pat0Cond (detailedView rs) = false) :
    formatResults rs q = Except.ok (detailedView rs) ∧
    extractTableData (detailedView rs) = rs.map rowOfRecord ∧
    (extractTableData (detailedView rs)).length = rs.length ∧
    ∀ r ∈ rs, ∀ p ∈ r, ¬(p.1 = "_id") →
      (lookupA (rowOfRecord r) ⟨pyStripL (titleStr p.1).data⟩).isSome = true ∧
      ∀ lsub, p.2 = FVal.nested lsub → ∀ s ∈ lsub,
        (lookupA (rowOfRecord r) ⟨pyStripL (titleStr s.1).data⟩).isSome = true := by
  have hfree : ∀ r ∈ rs, RFree (bodyChars r) := fun r hr => rfree_bodyChars (hcl r hr)
  have hsb := splitBlocks_detailed rs h1 h2 hfree
  have hfmt : formatResults rs q = Except.ok (detailedView rs) := by
    unfold formatResults
    have hie : rs.isEmpty = false := by
      cases rs with
      | nil => exact absurd rfl h1
      | cons a t => rfl
    rw [hie, if_neg (by simp), if_neg (by omega : ¬rs.length > 10)]
    rfl
  have hbne : (rs.map (fun r => bodyChars r ++ ['\n'])).isEmpty = false := by
    cases rs with
    | nil => exact absurd rfl h1
    | cons a t => rfl
  have hrows : ∀ b ∈ rs.map (fun r => bodyChars r ++ ['\n']),
      (rowOfBlock b).isEmpty = false := by
    intro b hb
    obtain ⟨r, hr, rfl⟩ := List.mem_map.mp hb
    exact rowOfRecord_ne_nil (hcl r hr)
  have hpat : pattern1RowsOf (rs.map (fun r => bodyChars r ++ ['\n'])) =
      rs.map rowOfRecord := by
    have hall : ∀ b ∈ rs.map (fun r => bodyChars r ++ ['\n']),
        (fun b => let r := rowOfBlock b; if r.isEmpty then none else some r) b =
          some (rowOfBlock b) := by
      intro b hb
      show (if (rowOfBlock b).isEmpty then none else some (rowOfBlock b)) =
        some (rowOfBlock b)
      rw [hrows b hb]
      simp
    unfold pattern1RowsOf
    rw [filterMap_eq_map_of_all _ rowOfBlock _ hall, List.map_map]
    rfl
  have hext : extractTableData (detailedView rs) = rs.map rowOfRecord := by
    simp only [extractTableData]
    rw [hp, hsb]
    simp [hbne, hpat]
  refine ⟨hfmt, hext, by rw [hext, List.length_map], ?_⟩
  intro r hr p hpmem hid
  have hc := hcl r hr
  have hcf : cleanField p = true := by
    rcases cleanField_of_mem hc hpmem with h3 | h3
    · exact absurd h3 hid
    · exact h3
  obtain ⟨k, fv⟩ := p
  constructor
  · cases fv with
    | base b =>
      simp only [cleanField] at hcf
      rw [Bool.and_eq_true] at hcf
      exact key_present_of_line hc (cleanPiece_props hcf.1).1
        (line_of_scalar_field hpmem hid)
    | nested lsub =>
      simp only [cleanField] at hcf
      rw [Bool.and_eq_true] at hcf
      exact key_present_of_line hc (cleanPiece_props hcf.1).1
        (header_line_of_nested_field hpmem hid)
  · intro lsub heq s hs
    cases fv with
    | base b => exact absurd heq (by simp)
    | nested lsub2 =>
      have hls : lsub2 = lsub := by
        injection heq
      subst hls
      simp only [cleanField] at hcf
      rw [Bool.and_eq_true] at hcf
      have h3 := List.all_eq_true.mp hcf.2 s hs
      simp only [Bool.and_eq_true] at h3
      have hcolon : ':' ∉ (' ' :: ' ' :: (titleStr s.1).data) := by
        intro hm
        rcases List.mem_cons.mp hm with h4 | h4
        · exact absurd h4 (by decide)
        · rcases List.mem_cons.mp h4 with h5 | h5
          · exact absurd h5 (by decide)
          · exact (cleanPiece_props h3.1).1 h5
      have hpres := key_present_of_line hc hcolon
        (sub_line_of_nested_field hpmem hid hs)
      rw [show (String.mk (pyStripL (' ' :: ' ' :: (titleStr s.1).data))) =
        String.mk (pyStripL (titleStr s.1).data) from
        congrArg String.mk (pyStripL_two_spaces _)] at hpres
      exact hpres

/-- Witness for the amended round trip, at two concrete clean records,
one with a nested address object. -/
theorem c2_roundtrip_witness :
    (([[("name", FVal.base (BVal.s "A"))],
       [("name", FVal.base (BVal.s "B")),
        ("address", FVal.nested [("city", BVal.s "X")])]] : List Record) ≠ [] ∧
     ([[("name", FVal.base (BVal.s "A"))],
       [("name", FVal.base (BVal.s "B")),
        ("address", FVal.nested [("city", BVal.s "X")])]] : List Record).length ≤ 10 ∧
     (∀ r ∈ ([[("name", FVal.base (BVal.s "A"))],
       [("name", FVal.base (BVal.s "B")),
        ("address", FVal.nested [("city", BVal.s "X")])]] : List Record),
        CleanRecord r = true) ∧
     pat0Cond (detailedView [[("name", FVal.base (BVal.s "A"))],
       [("name", FVal.base (BVal.s "B")),
        ("address", FVal.nested [("city", BVal.s "X")])]]) = false) ∧
    (formatResults [[("name", FVal.base (BVal.s "A"))],
       [("name", FVal.base (BVal.s "B")),
        ("address", FVal.nested [("city", BVal.s "X")])]] "clients" =
      Except.ok (detailedView [[("name", FVal.base (BVal.s "A"))],
       [("name", FVal.base (BVal.s "B")),
        ("address", FVal.nested [("city", BVal.s "X")])]]) ∧
     extractTableData (detailedView [[("name", FVal.base (BVal.s "A"))],
       [("name", FVal.base (BVal.s "B")),
        ("address", FVal.nested [("city", BVal.s "X")])]]) =
      ([[("name", FVal.base (BVal.s "A"))],
       [("name", FVal.base (BVal.s "B")),
        ("address", FVal.nested [("city", BVal.s "X")])]] : List Record).map rowOfRecord ∧
     (extractTableData (detailedView [[("name", FVal.base (BVal.s "A"))],
       [("name", FVal.base (BVal.s "B")),
        ("address", FVal.nested [("city", BVal.s "X")])]])).length =
      ([[("name", FVal.base (BVal.s "A"))],
       [("name", FVal.base (BVal.s "B")),
        ("address", FVal.nested [("city", BVal.s "X")])]] : List Record).length ∧
     ∀ r ∈ ([[("name", FVal.base (BVal.s "A"))],
       [("name", FVal.base (BVal.s "B")),
        ("address", FVal.nested [("city", BVal.s "X")])]] : List Record),
       ∀ p ∈ r, ¬(p.1 = "_id") →
        (lookupA (rowOfRecord r) ⟨pyStripL (titleStr p.1).data⟩).isSome = true ∧
        ∀ lsub, p.2 = FVal.nested lsub → ∀ s ∈ lsub,
          (lookupA (rowOfRecord r) ⟨pyStripL (titleStr s.1).data⟩).isSome = true) :=
  ⟨⟨by decide, by decide, by decide, by decide⟩,
    c2_roundtrip [[("name", FVal.base (BVal.s "A"))],
       [("name", FVal.base (BVal.s "B")),
        ("address", FVal.nested [("city", BVal.s "X")])]] "clients"
      (by decide) (by decide) (by decide) (by decide)⟩

end QA
